import Mathlib

/-!
Verification development for the GPC encoder (makegpc.py).

The program converts an indexed-color image into the PC-98 "GPC" format:
bitplane decomposition, vertical/horizontal interlace-XOR transform search,
and a two-level flag/literal sparse encoder.  Buffers are modelled as
`List Nat` (byte values), mutation as functional update, and the few
Python-specific behaviours (negative `memoryview` indices wrap; slice
assignment requires matching lengths) are noted where they matter.
-/

/-- hrz_steps = range(0x51): the candidate horizontal step values 0..0x50. -/
def hrz_steps : List Nat := List.range 0x51

/-- Inner `while i < size: result.append(i); i += step` loop of
MakeInterlaceTable, written with explicit fuel (the loop runs at most
`size` times whenever `step ≥ 1`, and the caller skips `step = 0`). -/
def upBy (fuel : Nat) (size step i : Nat) : List Nat :=
  match fuel with
  | 0 => []
  | fuel + 1 => if i < size then i :: upBy fuel size step (i + step) else []

/-- One entry of the interlace table: residue classes `start = 0..step-1`
concatenated, each class ascending by `step` (the `while start < step` loop). -/
def interlaceEntry (size step : Nat) : List Nat :=
  (List.range step).flatMap (fun start => upBy size size step start)

/-- MakeInterlaceTable: a dict mapping each nonzero step of `steps` to its
permutation; `step = 0` is skipped (`continue`), so no entry is stored. -/
def MakeInterlaceTable (size : Nat) (steps : List Nat) : Nat → Option (List Nat) :=
  fun step => if step ∈ steps ∧ step ≠ 0 then some (interlaceEntry size step) else none

/-- Python slice assignment `dst[ofs:ofs+len(vals)] = vals`.  All uses in the
program have `ofs + vals.length ≤ dst.length` (Python raises otherwise). -/
def setSlice (dst : List Nat) (ofs : Nat) (vals : List Nat) : List Nat :=
  dst.take ofs ++ vals ++ dst.drop (ofs + vals.length)

/-- Copy loop of VerticalIX: each source row (in `vrt_list` order) is copied
into consecutive destination slots, leaving one marker byte before each row. -/
def vCopyAux (src : List Nat) (stride : Nat) : List Nat → List Nat → Nat → List Nat
  | [], work, _ => work
  | row :: rest, work, writeofs =>
      vCopyAux src stride rest
        (setSlice work writeofs ((src.drop (row * stride)).take stride))
        (writeofs + stride + 1)

/-- Backward XOR loop of VerticalIX: `n` times, decrement `writeofs` and XOR
the byte there with the byte `S = stride+1` positions earlier.  All calls
keep the read index nonnegative, so Nat truncation is never exercised. -/
def vXorAux (S : Nat) : Nat → List Nat → Nat → List Nat
  | 0, work, _ => work
  | n + 1, work, writeofs =>
      vXorAux S n
        (work.set (writeofs - 1)
          (work.getD (writeofs - 1) 0 ^^^ work.getD (writeofs - 1 - S) 0))
        (writeofs - 1)

/-- VerticalIX: interlace the rows of the plane buffer into the work buffer
(marker bytes untouched by the copy), then, unless `h = 1`, XOR every byte
from the last down to position `stride+1` with the byte one row earlier. -/
def VerticalIX (srcv workv : List Nat) (w h : Nat) (vrt_list : List Nat) : List Nat :=
  let stride := w >>> 1
  let copied := vCopyAux srcv stride vrt_list workv 1
  if h = 1 then copied
  else vXorAux (stride + 1) ((stride + 1) * (h - 1)) copied ((stride + 1) * h)

/-- Candidate construction loop of HorizontalIX for one nonzero step: for
each `x`, read the payload byte at the permuted position, store
`lastbyte ^^^ nextbyte` back at that same (original) position `+1`, and keep
the raw byte as the new `lastbyte`. -/
def scatter (work : List Nat) (rowstart : Nat) : List Nat → List Nat → Nat → List Nat
  | [], buf, _ => buf
  | l :: rest, buf, lastbyte =>
      let nextbyte := work.getD (rowstart + l) 0
      scatter work rowstart rest (buf.set (l + 1) (lastbyte ^^^ nextbyte)) nextbyte

/-- Bit-cost estimation loop of HorizontalIX: nonzero bytes cost 8 bits; a
run of 8 zero bytes (tracked by `nullrun`, reset at every alignment
boundary) refunds 8 bits.  `align` counts positions `rowstart + x + 1`. -/
def bitsAux : List Nat → Nat → Int → Nat → Int
  | [], _, bits, _ => bits
  | b :: rest, nullrun, bits, align =>
      let nr1 := if b ≠ 0 then 0 else (nullrun + 1) &&& 7
      let bits1 := if b ≠ 0 then bits + 8 else if nr1 = 0 then bits - 8 else bits
      let al1 := (align + 1) &&& 7
      let nr2 := if al1 = 0 then 0 else nr1
      bitsAux rest nr2 bits1 al1

/-- Estimated compressed bit count of one row candidate (loop over its
`stride+1` bytes starting from `nullrun = 0`, `bits = 0`, `align = rowstart`). -/
def rowBits (row : List Nat) (rowstart : Nat) : Int := bitsAux row 0 0 rowstart

/-- Selection loop of HorizontalIX: keep the candidate with strictly smaller
estimated bits; the state is the pair (bestbits, besthrz).  The Python
`besthrz` starts unbound; it is modelled as 0, and the first candidate
(`hrz = 0`, cost below the 0xFFFF sentinel in every reachable call) always
binds it, matching the source. -/
def selectAux (f : Nat → Int) : List Nat → Int × Nat → Int × Nat
  | [], st => st
  | s :: rest, st => selectAux f rest (if f s < st.1 then (f s, s) else st)

/-- Candidate-building loop over `hrz_steps`, skipping step 0: each nonzero
step's rowbuf entry is overwritten by `scatter` over that step's permutation.
The Python rowbuf dict (keys `0..0x50`) is modelled as a list indexed by step. -/
def buildCands (work : List Nat) (rowstart : Nat) (lk : Nat → Option (List Nat)) :
    List Nat → List (List Nat) → List (List Nat)
  | [], rb => rb
  | s :: rest, rb =>
      if s = 0 then buildCands work rowstart lk rest rb
      else
        buildCands work rowstart lk rest
          (rb.set s (scatter work rowstart ((lk s).getD []) (rb.getD s []) 0))

/-- Processing of one row by HorizontalIX: refresh rowbuf[0] with the raw
payload, rebuild every nonzero-step candidate, pick the candidate with the
smallest estimated bits (first wins ties), and overwrite the row (marker and
payload) in the work buffer with it. -/
def hRow (stride : Nat) (lk : Nat → Option (List Nat)) (work : List Nat)
    (rb : List (List Nat)) (rowstart : Nat) : List Nat × List (List Nat) :=
  let payload := (work.drop rowstart).take stride
  let rb0 := rb.set 0 (setSlice (rb.getD 0 []) 1 payload)
  let rb1 := buildCands work rowstart lk hrz_steps rb0
  let besthrz := (selectAux (fun s => rowBits (rb1.getD s []) rowstart) hrz_steps (0xFFFF, 0)).2
  (setSlice work (rowstart - 1) (rb1.getD besthrz []), rb1)

/-- Row loop of HorizontalIX. -/
def hRows (stride : Nat) (lk : Nat → Option (List Nat)) :
    Nat → List Nat → List (List Nat) → Nat → List Nat × List (List Nat)
  | 0, work, rb, _ => (work, rb)
  | y + 1, work, rb, rowstart =>
      let p := hRow stride lk work rb rowstart
      hRows stride lk y p.1 p.2 (rowstart + stride + 1)

/-- HorizontalIX: for each of the `h` rows independently, choose and apply
the best horizontal interlace/XOR step. -/
def HorizontalIX (work : List Nat) (rb : List (List Nat)) (w h : Nat)
    (lk : Nat → Option (List Nat)) : List Nat × List (List Nat) :=
  hRows (w >>> 1) lk h work rb 1

/-- Write to a Python memoryview at a possibly negative index: negative
indices address from the end of the buffer. -/
def pySet (l : List Nat) (p : Int) (v : Nat) : List Nat :=
  if 0 ≤ p then l.set p.toNat v else l.set (l.length - (-p).toNat) v

/-- Python suffix slice `l[p:]` for a possibly negative `p`. -/
def pySuffix (l : List Nat) (p : Int) : List Nat :=
  if 0 ≤ p then l.drop p.toNat else l.drop (l.length - (-p).toNat)

/-- State of the Encode loop: the two flag accumulators, their remaining-bit
counters, the (possibly negative) write offset, and the output buffer. -/
structure EncSt where
  flagA : Nat
  flagB : Nat
  aLeft : Nat
  bLeft : Nat
  wofs : Int
  buf : List Nat

/-- One iteration of the Encode loop, consuming the source byte at
`readofs`: shift flagB, emit a literal for a nonzero byte, and on flag-group
expiry emit flagB (only if nonzero) and — unconditionally — flagA when its
own counter expires. -/
def encStep (work : List Nat) (readofs : Nat) (s : EncSt) : EncSt :=
  let byte := work.getD readofs 0
  let fB0 := s.flagB >>> 1
  let wofs1 : Int := if byte ≠ 0 then s.wofs - 1 else s.wofs
  let buf1 := if byte ≠ 0 then pySet s.buf (s.wofs - 1) byte else s.buf
  let fB := if byte ≠ 0 then fB0 ||| 0x80 else fB0
  let bL := s.bLeft - 1
  if bL = 0 then
    let fA0 := s.flagA >>> 1
    let wofs2 := if fB ≠ 0 then wofs1 - 1 else wofs1
    let buf2 := if fB ≠ 0 then pySet buf1 (wofs1 - 1) fB else buf1
    let fA := if fB ≠ 0 then fA0 ||| 0x80 else fA0
    let aL := s.aLeft - 1
    if aL = 0 then ⟨fA, fB, 8, 8, wofs2 - 1, pySet buf2 (wofs2 - 1) fA⟩
    else ⟨fA, fB, aL, 8, wofs2, buf2⟩
  else ⟨s.flagA, fB, s.aLeft, bL, wofs1, buf1⟩

/-- The `while readofs != 0` loop of Encode, processing source bytes from
the last index down to 0. -/
def encLoop (work : List Nat) : Nat → EncSt → EncSt
  | 0, s => s
  | r + 1, s => encLoop work r (encStep work r s)

/-- Encode: pack the work buffer from the end into `finalv`, returning the
final write offset and the written buffer.  The flag counters are seeded
from `L mod 8` and `ceil(L/8) mod 64`-style remainders exactly as the code
computes them. -/
def Encode (work finalv : List Nat) : Int × List Nat :=
  let L := work.length
  let a := ((L + 7) >>> 3) &&& 7
  let aLeft := if a = 0 then 8 else a
  let b := L &&& 7
  let bLeft := if b = 0 then 8 else b
  let s := encLoop work L ⟨0, 0, aLeft, bLeft, (finalv.length : Int), finalv⟩
  (s.wofs, s.buf)

/-- Initial rowbuf dict of Compress: a `stride+1`-byte array per candidate
step, with byte 0 holding the step value. -/
def initRb (stride : Nat) : List (List Nat) :=
  hrz_steps.map (fun s => s :: List.replicate stride 0)

/-- State threaded through the three vertical-step trials of Compress. -/
structure TrialSt where
  work : List Nat
  rb : List (List Nat)
  finalv : List Nat
  bestofs : Int
  bestbuf : List Nat
  bestvrt : Nat

/-- One trial of Compress with the shared, reused buffers: run VerticalIX,
HorizontalIX and Encode over the same work/rowbuf/final buffers, and keep
the result when its offset strictly exceeds the best so far. -/
def trialStep (src : List Nat) (w h : Nat)
    (hrzlk vrtlk : Nat → Option (List Nat)) (st : TrialSt) (vrt : Nat) : TrialSt :=
  let wk1 := VerticalIX src st.work w h ((vrtlk vrt).getD [])
  let p := HorizontalIX wk1 st.rb w h hrzlk
  let e := Encode p.1 st.finalv
  if e.1 > st.bestofs then ⟨p.1, p.2, e.2, e.1, pySuffix e.2 e.1, vrt⟩
  else ⟨p.1, p.2, e.2, st.bestofs, st.bestbuf, st.bestvrt⟩

/-- Compress: try vertical steps 2, 1, 4 in that order over shared buffers
and return the smallest encoding (largest offset) and its step.  The Python
`bestbuf`/`bestvrt` start unbound; they are modelled as `[]` and `0` (every
reachable call binds them in the first trial). -/
def Compress (srcbuf : List Nat) (w h : Nat) : List Nat × Nat :=
  let stride := w >>> 1
  let hrzlk := MakeInterlaceTable stride hrz_steps
  let vrtlk := MakeInterlaceTable h [1, 2, 4]
  let st0 : TrialSt :=
    ⟨List.replicate ((stride + 1) * h) 0, initRb stride,
      List.replicate ((stride + 1) * h * 8 / 7) 0, 0, [], 0⟩
  let st := [2, 1, 4].foldl (trialStep srcbuf w h hrzlk vrtlk) st0
  (st.bestbuf, st.bestvrt)

/-- Modelled from the spec: one Compress trial over fresh buffers — the
reference implementation in which every vertical-step trial starts from a
newly zero-filled work buffer, rowbuf dict and final buffer, with no state
carried over from previous trials. -/
def trialStepFresh (src : List Nat) (w h : Nat)
    (hrzlk vrtlk : Nat → Option (List Nat)) (st : TrialSt) (vrt : Nat) : TrialSt :=
  let stride := w >>> 1
  let wk1 := VerticalIX src (List.replicate ((stride + 1) * h) 0) w h ((vrtlk vrt).getD [])
  let p := HorizontalIX wk1 (initRb stride) w h hrzlk
  let e := Encode p.1 (List.replicate ((stride + 1) * h * 8 / 7) 0)
  if e.1 > st.bestofs then ⟨p.1, p.2, e.2, e.1, pySuffix e.2 e.1, vrt⟩
  else ⟨p.1, p.2, e.2, st.bestofs, st.bestbuf, st.bestvrt⟩

/-- Modelled from the spec: Compress with fresh per-trial buffers. -/
def CompressFresh (srcbuf : List Nat) (w h : Nat) : List Nat × Nat :=
  let stride := w >>> 1
  let hrzlk := MakeInterlaceTable stride hrz_steps
  let vrtlk := MakeInterlaceTable h [1, 2, 4]
  let st0 : TrialSt :=
    ⟨List.replicate ((stride + 1) * h) 0, initRb stride,
      List.replicate ((stride + 1) * h * 8 / 7) 0, 0, [], 0⟩
  let st := [2, 1, 4].foldl (trialStepFresh srcbuf w h hrzlk vrtlk) st0
  (st.bestbuf, st.bestvrt)

/-- ASCII bytes of the signature string literal, 15 characters:
"PC98)GPCFILE" followed by three spaces. -/
def sigBytes : List Nat :=
  [0x50, 0x43, 0x39, 0x38, 0x29, 0x47, 0x50, 0x43, 0x46, 0x49, 0x4C, 0x45, 0x20, 0x20, 0x20]

/-- Palette normalization of the main script: extend with zeros to 48
entries, or truncate to 48. -/
def palettePad (p : List Nat) : List Nat :=
  if p.length < 48 then p ++ List.replicate (48 - p.length) 0
  else if 48 < p.length then p.take 48 else p

/-- Packed palette block: for each of the 16 entries (i = 0,3,..,45),
two bytes `(R and F0) or (B shr 4)` and `G shr 4`. -/
def packPalette (p : List Nat) : List Nat :=
  (List.range 16).flatMap (fun k =>
    [(p.getD (3 * k) 0 &&& 0xF0) ||| (p.getD (3 * k + 2) 0 >>> 4), p.getD (3 * k + 1) 0 >>> 4])

/-- Header bytes as assembled before compression: signature, 5 zero bytes
(terminating NUL and the vertical-step dword placeholder), the two block
pointers, padding, palette dimensions, packed palette, and the 16-byte image
descriptor (original width and height, placement X/Y, the fixed value 4). -/
def headerBase (palette : List Nat) (w h x y : Nat) : List Nat :=
  sigBytes ++ List.replicate 5 0 ++ [0x30, 0, 0, 0, 0x54, 0, 0, 0] ++ List.replicate 20 0
    ++ [16, 0, 2, 0] ++ packPalette palette
    ++ [w &&& 0xFF, w >>> 8, h &&& 0xFF, h >>> 8, 0, 0, 0, 0, 4, 0,
        x &&& 0xFF, x >>> 8, y &&& 0xFF, y >>> 8, 0, 0]

/-- Final output assembly: stash the winning vertical step at 0x10..0x11 and
the compressed length's low 16 bits at 0x58..0x59, then append the payload. -/
def assemble (hdr : List Nat) (vrt : Nat) (payload : List Nat) : List Nat :=
  ((((hdr.set 0x10 (vrt &&& 0xFF)).set 0x11 (vrt >>> 8)).set
      0x58 (payload.length &&& 0xFF)).set 0x59 (payload.length >>> 8)) ++ payload

/-- Width padding: when `w` is not a multiple of 8, every row is extended to
`(w+7) and 0xFFF8` pixels with the transparent index 16. -/
def padWidth (bm : List Nat) (w h : Nat) : List Nat × Nat :=
  if w % 8 ≠ 0 then
    let w2 := (w + 7) &&& 0xFFF8
    ((List.range h).flatMap (fun r => (bm.drop (r * w)).take w ++ List.replicate (w2 - w) 16), w2)
  else (bm, w)

/-- Pack plane `i` of 8 consecutive pixels into one byte, first pixel in the
most significant bit. -/
def packOctet (pix : List Nat) (i : Nat) : Nat :=
  pix.foldl (fun acc p => (acc <<< 1) ||| ((p >>> i) &&& 1)) 0

/-- Bitplane decomposition loop: consume the bitmap 8 pixels at a time,
write the four plane bytes `planewidth` apart, and skip three plane widths
at the end of each scanline.  Fuel is the remaining bitmap length. -/
def planeLoop (pw w : Nat) : Nat → List Nat → List Nat → Nat → Nat → List Nat
  | 0, _, buf, _, _ => buf
  | _ + 1, [], buf, _, _ => buf
  | fuel + 1, bm, buf, ofs, x =>
      let chunk := bm.take 8
      let buf :=
        ((((buf.set ofs (packOctet chunk 0)).set (ofs + pw) (packOctet chunk 1)).set
            (ofs + 2 * pw) (packOctet chunk 2)).set (ofs + 3 * pw) (packOctet chunk 3))
      if x + 8 ≥ w then planeLoop pw w fuel (bm.drop 8) buf (ofs + 1 + pw * 3) 0
      else planeLoop pw w fuel (bm.drop 8) buf (ofs + 1) (x + 8)

/-- Bitplane decomposer: split the (padded) bitmap into four side-by-side
1-bit planes per scanline. -/
def mkPlanebuf (bitmap : List Nat) (w : Nat) : List Nat :=
  planeLoop (w >>> 3) w bitmap.length bitmap (List.replicate (bitmap.length >>> 1) 0) 0 0

/-- Whole encoding path of the main script for an already-decoded indexed
image: normalize the palette, build the header from the original dimensions,
pad the width, decompose bitplanes, compress, and assemble the file bytes. -/
def gpcFile (bitmap palette : List Nat) (w h x y : Nat) : List Nat :=
  let pal := palettePad palette
  let hdr := headerBase pal w h x y
  let p := padWidth bitmap w h
  let pb := mkPlanebuf p.1 p.2
  let c := Compress pb p.2 h
  assemble hdr c.2 c.1

/-- Count of nonzero bytes in a list. -/
def nzCount (l : List Nat) : Nat := (l.filter (fun b => b ≠ 0)).length

/-- Split a list into chunks of 8 (the last chunk may be shorter), with fuel. -/
def chunk8 (fuel : Nat) (l : List Nat) : List (List Nat) :=
  match fuel, l with
  | 0, _ => []
  | _, [] => []
  | fuel + 1, l => l.take 8 :: chunk8 fuel (l.drop 8)

/-- The aligned groups of a row for the cost estimate: a first group of
`8 - rowstart mod 8` bytes, then 8-byte groups. -/
def groupsOf (l : List Nat) (rowstart : Nat) : List (List Nat) :=
  let f := 8 - rowstart % 8
  l.take f :: chunk8 l.length (l.drop f)

/-- Cost the code's estimator assigns to one aligned group: 8 bits per
nonzero byte, minus an 8-bit refund when the group has exactly 8 bytes, all
zero. -/
def groupCost (g : List Nat) : Int :=
  8 * (nzCount g : Int) - (if g.length = 8 ∧ g.all (fun b => b = 0) then 8 else 0)

/-- Modelled from the spec: the claimed per-row cost model in which a
nonzero byte costs 8 bits, zero bytes are free, and every aligned 8-byte
group containing at least one nonzero byte additionally costs 8 bits of
flag overhead. -/
def specRowBits (row : List Nat) (rowstart : Nat) : Int :=
  8 * (nzCount row : Int)
    + 8 * (((groupsOf row rowstart).filter (fun g => ¬ g.all (fun b => b = 0))).length : Int)

/-- Forward XOR delta against the previous raw value: element `x` of the
result is `v (x-1) ^^^ v x` with `v (-1) = prev`. -/
def deltaFwd (prev : Nat) : List Nat → List Nat
  | [] => []
  | v :: rest => (prev ^^^ v) :: deltaFwd v rest

/-- Forward XOR accumulation: element `x` of the result is the XOR of
elements `0..x` of the input (plus the seed `prev`). -/
def accAux (prev : Nat) : List Nat → List Nat
  | [] => []
  | b :: rest => (prev ^^^ b) :: accAux (prev ^^^ b) rest

/-- Forward XOR accumulation from zero. -/
def xorAccumFwd (l : List Nat) : List Nat := accAux 0 l

/-- Modelled from the spec: the claimed RowCandidate — marker byte `s`
followed by the permuted payload passed through a filter that XORs each
byte with the previous already-filtered output value. -/
def claimedCandidate (payload : List Nat) (lookup : List Nat) (s : Nat) : List Nat :=
  s :: xorAccumFwd (lookup.map (fun l => payload.getD l 0))

/-- Modelled from the spec: the claimed VerticalIX — copy rows to permuted
slots (markers untouched), then replace each row (after the first, in
permuted order) by its XOR with the preceding row's already-XORed payload,
markers untouched. -/
def vSpecXor (S : Nat) : Nat → List Nat → Nat → List Nat
  | 0, work, _ => work
  | n + 1, work, pos =>
      let work2 := (List.range (S - 1)).foldl
        (fun wk j => wk.set (pos + 1 + j) (wk.getD (pos + 1 + j) 0 ^^^ wk.getD (pos + 1 + j - S) 0))
        work
      vSpecXor S n work2 (pos + S)

/-- Modelled from the spec: the claimed VerticalIX, assembled — permuted
copy, then the claimed payload-only filter with already-XORed neighbors. -/
def claimedVerticalIX (srcv workv : List Nat) (w h : Nat) (vrt_list : List Nat) : List Nat :=
  let stride := w >>> 1
  let copied := vCopyAux srcv stride vrt_list workv 1
  if h = 1 then copied
  else vSpecXor (stride + 1) (h - 1) copied (stride + 1)

/-- Number of expirations of the flagB counter over `r` Encode iterations,
starting from `b` remaining bits (counter reloads to 8). -/
def countB : Nat → Nat → Nat
  | 0, _ => 0
  | r + 1, b => if b = 1 then 1 + countB r 8 else countB r (b - 1)

/-- Number of expirations of the flagA counter over `r` Encode iterations,
starting from `b` and `a` remaining bits in the two counters. -/
def countA : Nat → Nat → Nat → Nat
  | 0, _, _ => 0
  | r + 1, b, a =>
      if b = 1 then
        if a = 1 then 1 + countA r 8 8 else countA r 8 (a - 1)
      else countA r (b - 1) a

/-- Forward XOR accumulation across rows of period `S+1`, reading a flat
buffer: positions below one row period are taken as is, later positions are
XORed with the accumulated value one row earlier. -/
def vAccumAt (out : List Nat) (S : Nat) : Nat → Nat
  | i =>
    if h : i < S + 1 then out.getD i 0
    else
      have : i - (S + 1) < i := by omega
      out.getD i 0 ^^^ vAccumAt out S (i - (S + 1))

theorem setGetD_eq (l : List Nat) (i : Nat) (v : Nat) (h : i < l.length) :
    (l.set i v).getD i 0 = v := by
  simp [List.getD_eq_getElem?_getD, List.getElem?_set, h]

theorem setGetD_ne (l : List Nat) {i j : Nat} (v : Nat) (h : i ≠ j) :
    (l.set i v).getD j 0 = l.getD j 0 := by
  simp [List.getD_eq_getElem?_getD, List.getElem?_set, h]

theorem upBy_nil (fuel size step i : Nat) (h : size ≤ i) : upBy fuel size step i = [] := by
  cases fuel with
  | zero => rfl
  | succ fuel => simp [upBy, Nat.not_lt.mpr h]

theorem upBy_facts (fuel size step : Nat) :
    ∀ i, ∀ x ∈ upBy fuel size step i, i ≤ x ∧ x < size ∧ step ∣ (x - i) := by
  induction fuel with
  | zero => intro i x hx; simp [upBy] at hx
  | succ fuel ih =>
      intro i x hx
      rw [upBy] at hx
      by_cases hi : i < size
      · simp only [if_pos hi, List.mem_cons] at hx
        rcases hx with rfl | hx
        · exact ⟨Nat.le_refl _, hi, by simp⟩
        · obtain ⟨h1, h2, h3⟩ := ih (i + step) x hx
          refine ⟨by omega, h2, ?_⟩
          have : x - i = (x - (i + step)) + step := by omega
          rw [this]
          exact Nat.dvd_add h3 (Nat.dvd_refl step)
      · simp [if_neg hi] at hx

theorem mem_upBy (fuel size step : Nat) (hstep : 0 < step) :
    ∀ i x, size ≤ fuel + i → i ≤ x → x < size → step ∣ (x - i) →
      x ∈ upBy fuel size step i := by
  induction fuel with
  | zero => intro i x hf h1 h2 _; omega
  | succ fuel ih =>
      intro i x hf h1 h2 hdvd
      have hi : i < size := Nat.lt_of_le_of_lt h1 h2
      rw [upBy, if_pos hi]
      rcases Nat.eq_or_lt_of_le h1 with rfl | hlt
      · exact List.mem_cons_self _ _
      · have hpos : 0 < x - i := by omega
        have hge : step ≤ x - i := Nat.le_of_dvd hpos hdvd
        refine List.mem_cons_of_mem _ (ih (i + step) x (by omega) (by omega) h2 ?_)
        have : x - (i + step) = (x - i) - step := by omega
        rw [this]
        exact Nat.dvd_sub' hdvd (Nat.dvd_refl step)

theorem upBy_mod (fuel size step : Nat) :
    ∀ i, i < step → ∀ x ∈ upBy fuel size step i, x % step = i := by
  intro i hi x hx
  obtain ⟨h1, _, k, hk⟩ := upBy_facts fuel size step i x hx
  have hx2 : x = i + step * k := by omega
  rw [hx2, Nat.add_mul_mod_self_left, Nat.mod_eq_of_lt hi]

theorem upBy_sorted (fuel size step : Nat) (hstep : 0 < step) :
    ∀ i, List.Pairwise (· < ·) (upBy fuel size step i) := by
  induction fuel with
  | zero => intro i; simp [upBy]
  | succ fuel ih =>
      intro i
      rw [upBy]
      by_cases hi : i < size
      · rw [if_pos hi, List.pairwise_cons]
        refine ⟨fun a ha => ?_, ih (i + step)⟩
        have := (upBy_facts fuel size step (i + step) a ha).1
        omega
      · rw [if_neg hi]; exact List.Pairwise.nil

theorem interlaceEntry_nodup (size step : Nat) (hstep : 0 < step) :
    (interlaceEntry size step).Nodup := by
  rw [interlaceEntry, List.nodup_flatMap]
  constructor
  · intro r _
    exact ((upBy_sorted size size step hstep r).imp (fun h => Nat.ne_of_lt h))
  · have : ∀ a b : Nat, a < step → b < step → a ≠ b →
        List.Disjoint (upBy size size step a) (upBy size size step b) := by
      intro a b ha hb hab x hxa hxb
      have h1 := upBy_mod size size step a ha x hxa
      have h2 := upBy_mod size size step b hb x hxb
      omega
    refine List.Pairwise.imp_of_mem ?_ (List.pairwise_lt_range step)
    intro a b ha hb hlt
    exact this a b (List.mem_range.mp ha) (List.mem_range.mp hb) (Nat.ne_of_lt hlt)

theorem interlaceEntry_mem_lt (size step : Nat) :
    ∀ x ∈ interlaceEntry size step, x < size := by
  intro x hx
  rw [interlaceEntry, List.mem_flatMap] at hx
  obtain ⟨r, _, hx⟩ := hx
  exact (upBy_facts size size step r x hx).2.1

theorem interlaceEntry_mem_of_lt (size step : Nat) (hstep : 0 < step) :
    ∀ x, x < size → x ∈ interlaceEntry size step := by
  intro x hx
  rw [interlaceEntry, List.mem_flatMap]
  refine ⟨x % step, List.mem_range.mpr (Nat.mod_lt x hstep), ?_⟩
  refine mem_upBy size size step hstep (x % step) x (by omega) (Nat.mod_le x step) hx ?_
  have := Nat.div_add_mod x step
  exact ⟨x / step, by omega⟩

theorem interlaceEntry_perm (size step : Nat) (hstep : 0 < step) :
    (interlaceEntry size step).Perm (List.range size) := by
  rw [List.perm_ext_iff_of_nodup (interlaceEntry_nodup size step hstep) (List.nodup_range size)]
  intro a
  constructor
  · intro ha; exact List.mem_range.mpr (interlaceEntry_mem_lt size step a ha)
  · intro ha; exact interlaceEntry_mem_of_lt size step hstep a (List.mem_range.mp ha)

theorem interlaceEntry_length (size step : Nat) (hstep : 0 < step) :
    (interlaceEntry size step).length = size := by
  have := (interlaceEntry_perm size step hstep).length_eq
  simpa using this

theorem upBy_one (size : Nat) :
    ∀ fuel i, size ≤ fuel + i → upBy fuel size 1 i = List.range' i (size - i) := by
  intro fuel
  induction fuel with
  | zero =>
      intro i h
      have : size - i = 0 := by omega
      simp [upBy, this]
  | succ fuel ih =>
      intro i h
      rw [upBy]
      by_cases hi : i < size
      · rw [if_pos hi, ih (i + 1) (by omega)]
        have h2 : size - i = (size - (i + 1)) + 1 := by omega
        rw [h2, List.range'_succ]
      · rw [if_neg hi]
        have : size - i = 0 := by omega
        simp [this]

theorem interlaceEntry_one (size : Nat) : interlaceEntry size 1 = List.range size := by
  have h0 : List.range 1 = [0] := rfl
  rw [interlaceEntry, h0, List.flatMap_cons, List.flatMap_nil, List.append_nil,
    upBy_one size size 0 (by omega), Nat.sub_zero, ← List.range_eq_range']

theorem upBy_big (size step : Nat) (hbig : size ≤ step) :
    ∀ r, upBy size size step r = if r < size then [r] else [] := by
  intro r
  cases size with
  | zero => simp [upBy]
  | succ fuel =>
      have hunf : upBy (fuel + 1) (fuel + 1) step r =
          if r < fuel + 1 then r :: upBy fuel (fuel + 1) step (r + step) else [] := rfl
      by_cases hr : r < fuel + 1
      · rw [if_pos hr, hunf, if_pos hr, upBy_nil fuel (fuel + 1) step (r + step) (by omega)]
      · rw [if_neg hr, hunf, if_neg hr]

theorem flatMap_ite_singleton (size : Nat) :
    ∀ n, (List.range n).flatMap (fun r => if r < size then [r] else []) =
      List.range (min size n) := by
  intro n
  induction n with
  | zero => simp
  | succ n ih =>
      rw [List.range_succ, List.flatMap_append, ih]
      by_cases hn : n < size
      · have h1 : min size n = n := by omega
        have h2 : min size (n + 1) = n + 1 := by omega
        simp [h1, h2, hn, List.range_succ]
      · have h1 : min size n = size := by omega
        have h2 : min size (n + 1) = size := by omega
        simp [h1, h2, hn]

theorem interlaceEntry_big (size step : Nat) (hbig : size ≤ step) :
    interlaceEntry size step = List.range size := by
  rw [interlaceEntry]
  have hcong : (List.range step).flatMap (fun start => upBy size size step start) =
      (List.range step).flatMap (fun r => if r < size then [r] else []) := by
    apply List.flatMap_congr
    intro r _
    exact upBy_big size step hbig r
  rw [hcong, flatMap_ite_singleton size step, Nat.min_eq_left hbig]

/-- C9: for every domain size `N ≥ 1` and step `s ≥ 1` contained in the step
set, MakeInterlaceTable stores for `s` a bijection of `0..N-1` (every listed
index is below `N`, none repeats, every index below `N` occurs, and the list
has length `N`); for `s = 1` it is the identity; for `s ≥ N` it degenerates
to the identity ordering without failing; and no permutation is stored for
step 0. -/
theorem C9_interlace_table_bijection (N s : Nat) (steps : List Nat)
    ( hN : 1 ≤ N) (hs : 1 ≤ s) (hmem : s ∈ steps) :
    MakeInterlaceTable N steps s = some (interlaceEntry N s) ∧
    (interlaceEntry N s).Nodup ∧
    (∀ x ∈ interlaceEntry N s, x < N) ∧
    (∀ x, x < N → x ∈ interlaceEntry N s) ∧
    (interlaceEntry N s).length = N ∧
    (s = 1 → interlaceEntry N s = List.range N) ∧
    (N ≤ s → interlaceEntry N s = List.range N) ∧
    MakeInterlaceTable N steps 0 = none := by
  refine ⟨?_, interlaceEntry_nodup N s (by omega), interlaceEntry_mem_lt N s,
    interlaceEntry_mem_of_lt N s (by omega), interlaceEntry_length N s (by omega),
    ?_, interlaceEntry_big N s, ?_⟩
  · rw [MakeInterlaceTable, if_pos ⟨hmem, by omega⟩]
  · intro h1; rw [h1]; exact interlaceEntry_one N
  · simp [MakeInterlaceTable]

/-- Witness for C9 at `N = 5`, `s = 2`, step set `{2}`. -/
theorem C9_witness :
    MakeInterlaceTable 5 [2] 2 = some (interlaceEntry 5 2) ∧
    (interlaceEntry 5 2).Nodup ∧
    (∀ x ∈ interlaceEntry 5 2, x < 5) ∧
    (∀ x, x < 5 → x ∈ interlaceEntry 5 2) ∧
    (interlaceEntry 5 2).length = 5 ∧
    (2 = 1 → interlaceEntry 5 2 = List.range 5) ∧
    (5 ≤ 2 → interlaceEntry 5 2 = List.range 5) ∧
    MakeInterlaceTable 5 [2] 0 = none :=
  C9_interlace_table_bijection 5 2 [2] (by decide) (by decide) (by decide)

theorem setSlice_length (dst : List Nat) (ofs : Nat) (vals : List Nat)
    (h : ofs + vals.length ≤ dst.length) : (setSlice dst ofs vals).length = dst.length := by
  simp [setSlice]
  omega

theorem setSlice_getD_in (dst : List Nat) (ofs : Nat) (vals : List Nat) (i : Nat)
    (hofs : ofs ≤ dst.length) (h1 : ofs ≤ i) (h2 : i < ofs + vals.length) :
    (setSlice dst ofs vals).getD i 0 = vals.getD (i - ofs) 0 := by
  have hta : (dst.take ofs).length = ofs := by simp [hofs]
  rw [setSlice, List.append_assoc, List.getD_eq_getElem?_getD,
    List.getElem?_append_right (by rw [hta]; exact h1), hta,
    List.getElem?_append_left (by omega), ← List.getD_eq_getElem?_getD]

theorem setSlice_getD_out (dst : List Nat) (ofs : Nat) (vals : List Nat) (i : Nat)
    (hofs : ofs ≤ dst.length) (h : i < ofs ∨ ofs + vals.length ≤ i) :
    (setSlice dst ofs vals).getD i 0 = dst.getD i 0 := by
  have hta : (dst.take ofs).length = ofs := by simp [hofs]
  rw [setSlice, List.append_assoc, List.getD_eq_getElem?_getD, List.getD_eq_getElem?_getD]
  rcases h with h | h
  · rw [List.getElem?_append_left (by rw [hta]; omega), List.getElem?_take, if_pos (by omega)]
  · rw [List.getElem?_append_right (by rw [hta]; omega), hta,
      List.getElem?_append_right (by omega), List.getElem?_drop]
    have hix : ofs + vals.length + (i - ofs - vals.length) = i := by omega
    rw [hix]

theorem scatter_length (work : List Nat) (ro : Nat) :
    ∀ lookup buf last, (scatter work ro lookup buf last).length = buf.length := by
  intro lookup
  induction lookup with
  | nil => intro buf last; rfl
  | cons l rest ih => intro buf last; rw [scatter, ih]; simp

theorem scatter_untouched (work : List Nat) (ro : Nat) :
    ∀ lookup buf last i, (∀ l ∈ lookup, l + 1 ≠ i) →
      (scatter work ro lookup buf last).getD i 0 = buf.getD i 0 := by
  intro lookup
  induction lookup with
  | nil => intro buf last i _; rfl
  | cons l rest ih =>
      intro buf last i hi
      rw [scatter, ih _ _ _ (fun a ha => hi a (List.mem_cons_of_mem _ ha))]
      exact setGetD_ne _ _ (hi l (List.mem_cons_self _ _))

theorem scatter_reads (work : List Nat) (ro : Nat) :
    ∀ (lookup buf : List Nat) (last : Nat), lookup.Nodup → (∀ l ∈ lookup, l + 1 < buf.length) →
      lookup.map (fun l => (scatter work ro lookup buf last).getD (l + 1) 0) =
        deltaFwd last (lookup.map (fun l => work.getD (ro + l) 0)) := by
  intro lookup
  induction lookup with
  | nil => intro buf last _ _; rfl
  | cons l rest ih =>
      intro buf last hnd hb
      have hlen : l + 1 < buf.length := hb l (List.mem_cons_self _ _)
      have hne : l ∉ rest := (List.nodup_cons.mp hnd).1
      rw [List.map_cons, List.map_cons, deltaFwd, scatter, List.cons_eq_cons]
      constructor
      · rw [scatter_untouched work ro rest _ _ _ (fun a ha hcontra => hne (by
          have : a = l := by omega
          exact this ▸ ha))]
        exact setGetD_eq _ _ _ hlen
      · rw [ih _ _ (List.nodup_cons.mp hnd).2 (fun a ha => by
          rw [List.length_set]; exact hb a (List.mem_cons_of_mem _ ha))]

theorem accAux_deltaFwd (vs : List Nat) : ∀ prev, accAux prev (deltaFwd prev vs) = vs := by
  induction vs with
  | nil => intro prev; rfl
  | cons v rest ih =>
      intro prev
      rw [deltaFwd, accAux, Nat.xor_cancel_left, ih v]

theorem vXorAux_getD (S : Nat) (hS : 0 < S) :
    ∀ (n : Nat) (work : List Nat) (wofs : Nat), S + n ≤ wofs → wofs ≤ work.length →
      ∀ i, (vXorAux S n work wofs).getD i 0 =
        if wofs - n ≤ i ∧ i < wofs then work.getD i 0 ^^^ work.getD (i - S) 0
        else work.getD i 0 := by
  intro n
  induction n with
  | zero =>
      intro work wofs _ _ i
      rw [vXorAux, if_neg (by omega)]
  | succ n ih =>
      intro work wofs hn hlen i
      rw [vXorAux]
      rw [ih _ (wofs - 1) (by omega) (by rw [List.length_set]; omega) i]
      by_cases hcase : wofs - 1 - n ≤ i ∧ i < wofs - 1
      · rw [if_pos hcase, if_pos (by omega)]
        rw [setGetD_ne _ _ (by omega), setGetD_ne _ _ (by omega)]
      · rw [if_neg hcase]
        by_cases htop : i = wofs - 1
        · subst htop
          rw [if_pos (by omega)]
          exact setGetD_eq _ _ _ (by omega)
        · rw [if_neg (by omega)]
          exact setGetD_ne _ _ (by omega)

theorem vCopyAux_length (src : List Nat) (stride : Nat) :
    ∀ (rows work : List Nat) (wofs : Nat),
      (∀ r ∈ rows, r * stride + stride ≤ src.length) →
      wofs + rows.length * (stride + 1) ≤ work.length + 1 →
      (vCopyAux src stride rows work wofs).length = work.length := by
  intro rows
  induction rows with
  | nil => intro work wofs _ _; rfl
  | cons r rest ih =>
      intro work wofs hsrc hlen
      have hslice : ((src.drop (r * stride)).take stride).length = stride := by
        have := hsrc r (List.mem_cons_self _ _)
        simp
        omega
      have hrl : (r :: rest).length * (stride + 1) =
          rest.length * (stride + 1) + (stride + 1) := by
        rw [List.length_cons, Nat.succ_mul]
      rw [vCopyAux, ih _ _ (fun a ha => hsrc a (List.mem_cons_of_mem _ ha)) (by
        rw [setSlice_length _ _ _ (by rw [hslice]; omega)]
        omega), setSlice_length _ _ _ (by rw [hslice]; omega)]

theorem vCopyAux_untouched (src : List Nat) (stride : Nat) :
    ∀ (rows work : List Nat) (wofs : Nat) (i : Nat),
      (∀ r ∈ rows, r * stride + stride ≤ src.length) →
      wofs + rows.length * (stride + 1) ≤ work.length + 1 →
      (∀ k, k < rows.length → i < wofs + k * (stride + 1) ∨
        wofs + k * (stride + 1) + stride ≤ i) →
      (vCopyAux src stride rows work wofs).getD i 0 = work.getD i 0 := by
  intro rows
  induction rows with
  | nil => intro work wofs i _ _ _; rfl
  | cons r rest ih =>
      intro work wofs i hsrc hlen hout
      have hslice : ((src.drop (r * stride)).take stride).length = stride := by
        have := hsrc r (List.mem_cons_self _ _)
        simp
        omega
      have hrl : (r :: rest).length * (stride + 1) =
          rest.length * (stride + 1) + (stride + 1) := by
        rw [List.length_cons, Nat.succ_mul]
      have h0 := hout 0 (by simp)
      simp only [Nat.zero_mul, Nat.add_zero] at h0
      rw [vCopyAux, ih _ _ _ (fun a ha => hsrc a (List.mem_cons_of_mem _ ha))
        (by rw [setSlice_length _ _ _ (by rw [hslice]; omega)]; omega)
        (fun k hk => by
          have := hout (k + 1) (by simp; omega)
          rw [Nat.succ_mul] at this
          omega)]
      rw [setSlice_getD_out _ _ _ _ (by omega) (by rw [hslice]; omega)]

theorem vCopyAux_sect (src : List Nat) (stride : Nat) :
    ∀ (rows work : List Nat) (wofs : Nat),
      (∀ r ∈ rows, r * stride + stride ≤ src.length) →
      wofs + rows.length * (stride + 1) ≤ work.length + 1 →
      ∀ k j, k < rows.length → j < stride →
        (vCopyAux src stride rows work wofs).getD (wofs + k * (stride + 1) + j) 0 =
          src.getD (rows.getD k 0 * stride + j) 0 := by
  intro rows
  induction rows with
  | nil => intro work wofs _ _ k j hk _; simp at hk
  | cons r rest ih =>
      intro work wofs hsrc hlen k j hk hj
      have hslice : ((src.drop (r * stride)).take stride).length = stride := by
        have := hsrc r (List.mem_cons_self _ _)
        simp
        omega
      have hrl : (r :: rest).length * (stride + 1) =
          rest.length * (stride + 1) + (stride + 1) := by
        rw [List.length_cons, Nat.succ_mul]
      rw [vCopyAux]
      cases k with
      | zero =>
          simp only [Nat.zero_mul, Nat.add_zero, List.getD_cons_zero]
          rw [vCopyAux_untouched src stride rest _ _ _
            (fun a ha => hsrc a (List.mem_cons_of_mem _ ha))
            (by rw [setSlice_length _ _ _ (by rw [hslice]; omega)]; omega)
            (fun m hm => by omega)]
          rw [setSlice_getD_in _ _ _ _ (by omega) (by omega) (by rw [hslice]; omega)]
          rw [List.getD_eq_getElem?_getD, List.getD_eq_getElem?_getD, List.getElem?_take,
            if_pos (by omega), List.getElem?_drop]
          have hx : r * stride + (wofs + j - wofs) = r * stride + j := by omega
          rw [hx]
      | succ k =>
          have hpos : wofs + (k + 1) * (stride + 1) + j =
              wofs + stride + 1 + k * (stride + 1) + j := by
            rw [Nat.succ_mul]; omega
          rw [hpos, ih _ _ (fun a ha => hsrc a (List.mem_cons_of_mem _ ha))
            (by rw [setSlice_length _ _ _ (by rw [hslice]; omega)]; omega)
            k j (by simpa using hk) hj]
          rw [List.getD_cons_succ]

theorem getD_map_lt (f : Nat → Nat) (l : List Nat) (x : Nat) (h : x < l.length) :
    (l.map f).getD x 0 = f (l.getD x 0) := by
  rw [List.getD_eq_getElem?_getD, List.getD_eq_getElem?_getD, List.getElem?_map,
    List.getElem?_eq_getElem h]
  rfl

theorem deltaFwd_getD :
    ∀ (vs : List Nat) (prev x : Nat), x < vs.length →
      (deltaFwd prev vs).getD x 0 =
        (if x = 0 then prev else vs.getD (x - 1) 0) ^^^ vs.getD x 0 := by
  intro vs
  induction vs with
  | nil => intro prev x hx; simp at hx
  | cons v rest ih =>
      intro prev x hx
      cases x with
      | zero => rfl
      | succ x =>
          rw [deltaFwd, List.getD_cons_succ, ih v x (by simpa using hx)]
          cases x with
          | zero => rfl
          | succ x => rfl


/-- C5 (amended): VerticalIX copies each source row into its permuted slot
(markers untouched by the copy) and then, scanning from the last row down to
the second, XORs every byte of the `stride+1`-byte row — the leading marker
byte included — with the corresponding byte of the immediately preceding
row's original (not yet XORed) content; the first row in permuted order is
left unfiltered, and for `h = 1` the filter phase is skipped entirely. -/
theorem C5_vertical_transform (src work : List Nat) (w h : Nat) (vl : List Nat)
    (hlen : work.length = (w >>> 1 + 1) * h) (hvl : vl.length = h)
    (hsrc : ∀ r ∈ vl, r * (w >>> 1) + (w >>> 1) ≤ src.length) :
    (∀ k, k < h → ∀ j, j < w >>> 1 →
      (VerticalIX src work w h vl).getD (k * (w >>> 1 + 1) + 1 + j) 0 =
        src.getD (vl.getD k 0 * (w >>> 1) + j) 0 ^^^
          (if k = 0 then 0 else src.getD (vl.getD (k - 1) 0 * (w >>> 1) + j) 0)) ∧
    (∀ k, k < h →
      (VerticalIX src work w h vl).getD (k * (w >>> 1 + 1)) 0 =
        work.getD (k * (w >>> 1 + 1)) 0 ^^^
          (if k = 0 then 0 else work.getD ((k - 1) * (w >>> 1 + 1)) 0)) ∧
    (h = 1 → VerticalIX src work w h vl = vCopyAux src (w >>> 1) vl work 1) := by
  obtain ⟨stride, hstride⟩ : ∃ t, t = w >>> 1 := ⟨w >>> 1, rfl⟩
  rw [← hstride] at hlen hsrc ⊢
  have hclen : 1 + vl.length * (stride + 1) ≤ work.length + 1 := by
    rw [hvl, hlen, Nat.mul_comm h (stride + 1)]
    omega
  have hcopylen : (vCopyAux src stride vl work 1).length = work.length :=
    vCopyAux_length src stride vl work 1 hsrc hclen
  have hthird : h = 1 → VerticalIX src work w h vl = vCopyAux src stride vl work 1 := by
    intro h1
    simp only [VerticalIX, ← hstride, h1, if_pos]
  rcases Nat.lt_or_ge h 2 with hsmall | hbig
  · -- h = 0 or h = 1: the XOR phase is absent or empty.
    interval_cases h
    · exact ⟨fun k hk => by omega, fun k hk => by omega, hthird⟩
    · refine ⟨?_, ?_, hthird⟩
      · intro k hk j hj
        have hk0 : k = 0 := by omega
        subst hk0
        rw [hthird rfl]
        have hsect := vCopyAux_sect src stride vl work 1 hsrc hclen 0 j (by omega) hj
        simpa using hsect
      · intro k hk
        have hk0 : k = 0 := by omega
        subst hk0
        rw [hthird rfl]
        have hm := vCopyAux_untouched src stride vl work 1 0 hsrc hclen
          (fun m hm => Or.inl (by omega))
        simpa using hm
  · -- h ≥ 2: the filter really runs.
    have hne : h ≠ 1 := by omega
    have hv : VerticalIX src work w h vl =
        vXorAux (stride + 1) ((stride + 1) * (h - 1)) (vCopyAux src stride vl work 1)
          ((stride + 1) * h) := by
      simp only [VerticalIX, ← hstride, if_neg hne]
    have hh1 : h - 1 + 1 = h := by omega
    have hmul : (stride + 1) * (h - 1) + (stride + 1) = (stride + 1) * h := by
      calc (stride + 1) * (h - 1) + (stride + 1)
          = (stride + 1) * (h - 1 + 1) := (Nat.mul_succ (stride + 1) (h - 1)).symm
        _ = (stride + 1) * h := by rw [hh1]
    have hxor := vXorAux_getD (stride + 1) (by omega) ((stride + 1) * (h - 1))
      (vCopyAux src stride vl work 1) ((stride + 1) * h) (by omega)
      (by rw [hcopylen, hlen])
    constructor
    · intro k hk j hj
      rcases Nat.eq_zero_or_pos k with hk0 | hkpos
      · subst hk0
        rw [hv, hxor, if_neg (by omega)]
        have hsect := vCopyAux_sect src stride vl work 1 hsrc hclen 0 j (by omega) hj
        simpa using hsect
      · obtain ⟨m, rfl⟩ : ∃ m, k = m + 1 := ⟨k - 1, by omega⟩
        have hsm : (m + 1) * (stride + 1) = m * (stride + 1) + (stride + 1) :=
          Nat.succ_mul m (stride + 1)
        have hbd : (m + 1 + 1) * (stride + 1) ≤ h * (stride + 1) :=
          Nat.mul_le_mul_right (stride + 1) (by omega)
        have hsm2 : (m + 1 + 1) * (stride + 1) = (m + 1) * (stride + 1) + (stride + 1) :=
          Nat.succ_mul (m + 1) (stride + 1)
        have hcomm : h * (stride + 1) = (stride + 1) * h := Nat.mul_comm h (stride + 1)
        rw [hv, hxor, if_pos (by omega)]
        have hp1 : (m + 1) * (stride + 1) + 1 + j - (stride + 1) =
            m * (stride + 1) + 1 + j := by omega
        have hc1 := vCopyAux_sect src stride vl work 1 hsrc hclen (m + 1) j
          (by omega) hj
        have hc2 := vCopyAux_sect src stride vl work 1 hsrc hclen m j
          (by omega) hj
        have he1 : 1 + (m + 1) * (stride + 1) + j = (m + 1) * (stride + 1) + 1 + j := by
          omega
        have he2 : 1 + m * (stride + 1) + j = m * (stride + 1) + 1 + j := by omega
        rw [he1] at hc1
        rw [he2] at hc2
        rw [hp1, hc1, hc2]
        simp
    · constructor
      · intro k hk
        rcases Nat.eq_zero_or_pos k with hk0 | hkpos
        · subst hk0
          rw [hv, hxor, if_neg (by omega)]
          have hm := vCopyAux_untouched src stride vl work 1 0 hsrc hclen
            (fun f hf => Or.inl (by omega))
          simpa using hm
        · obtain ⟨m, rfl⟩ : ∃ m, k = m + 1 := ⟨k - 1, by omega⟩
          have hsm : (m + 1) * (stride + 1) = m * (stride + 1) + (stride + 1) :=
            Nat.succ_mul m (stride + 1)
          have hbd : (m + 1 + 1) * (stride + 1) ≤ h * (stride + 1) :=
            Nat.mul_le_mul_right (stride + 1) (by omega)
          have hsm2 : (m + 1 + 1) * (stride + 1) = (m + 1) * (stride + 1) + (stride + 1) :=
            Nat.succ_mul (m + 1) (stride + 1)
          have hcomm : h * (stride + 1) = (stride + 1) * h := Nat.mul_comm h (stride + 1)
          rw [hv, hxor, if_pos (by omega)]
          have hmark : ∀ q, q < vl.length →
              (vCopyAux src stride vl work 1).getD (q * (stride + 1)) 0 =
                work.getD (q * (stride + 1)) 0 := by
            intro q hq
            refine vCopyAux_untouched src stride vl work 1 (q * (stride + 1)) hsrc hclen ?_
            intro f hf
            rcases Nat.lt_or_ge f q with hfq | hfq
            · have h1 : (f + 1) * (stride + 1) ≤ q * (stride + 1) :=
                Nat.mul_le_mul_right (stride + 1) (by omega)
              have h2 : (f + 1) * (stride + 1) = f * (stride + 1) + (stride + 1) :=
                Nat.succ_mul f (stride + 1)
              right; omega
            · have h1 : q * (stride + 1) ≤ f * (stride + 1) :=
                Nat.mul_le_mul_right (stride + 1) hfq
              left; omega
          have hp1 : (m + 1) * (stride + 1) - (stride + 1) = m * (stride + 1) := by omega
          rw [hp1, hmark (m + 1) (by omega), hmark m (by omega)]
          simp
      · exact hthird

/-- C5 counterexample: for the three-row input `[1,2,4]` (stride 1, identity
permutation, fresh work buffer) the code's VerticalIX XORs the last row with
the *original* middle row, producing byte 6 = 4 xor 2 at the last payload
position, whereas the claimed filter (XOR with the already-XORed preceding
payload, scanning to the second row) would produce 7 = 4 xor 2 xor 1. -/
theorem C5_counterexample :
    VerticalIX [1, 2, 4] (List.replicate 6 0) 2 3 [0, 1, 2] ≠
      claimedVerticalIX [1, 2, 4] (List.replicate 6 0) 2 3 [0, 1, 2] := by decide

/-- Witness for C5 at the concrete three-row input. -/
theorem C5_witness :
    (∀ k, k < 3 → ∀ j, j < 2 >>> 1 →
      (VerticalIX [1, 2, 4] (List.replicate 6 0) 2 3 [0, 1, 2]).getD
          (k * (2 >>> 1 + 1) + 1 + j) 0 =
        [1, 2, 4].getD ([0, 1, 2].getD k 0 * (2 >>> 1) + j) 0 ^^^
          (if k = 0 then 0
           else [1, 2, 4].getD ([0, 1, 2].getD (k - 1) 0 * (2 >>> 1) + j) 0)) ∧
    (∀ k, k < 3 →
      (VerticalIX [1, 2, 4] (List.replicate 6 0) 2 3 [0, 1, 2]).getD
          (k * (2 >>> 1 + 1)) 0 =
        (List.replicate 6 0).getD (k * (2 >>> 1 + 1)) 0 ^^^
          (if k = 0 then 0
           else (List.replicate 6 0).getD ((k - 1) * (2 >>> 1 + 1)) 0)) ∧
    ((3 : Nat) = 1 →
      VerticalIX [1, 2, 4] (List.replicate 6 0) 2 3 [0, 1, 2] =
        vCopyAux [1, 2, 4] (2 >>> 1) [0, 1, 2] (List.replicate 6 0) 1) :=
  C5_vertical_transform [1, 2, 4] (List.replicate 6 0) 2 3 [0, 1, 2]
    (by decide) (by decide) (by decide)

/-- C7: both delta filters are self-inverse.  Horizontally, for every step
`s ≥ 1`, reading the RowCandidate that `scatter` builds over the step's
permutation back in permutation order and XOR-accumulating forward recovers
the permuted source bytes.  Vertically, XOR-accumulating forward from the
first row over the output of the backward row filter recovers the original
flat buffer of `hh` rows of `S+1` bytes. -/
theorem C7_delta_self_inverse (stride s ro : Nat) (work t flat : List Nat) (S hh : Nat)
    (hs : 1 ≤ s) (ht : t.length = stride) (hflat : flat.length = (S + 1) * hh) :
    xorAccumFwd ((interlaceEntry stride s).map
        (fun l => (scatter work ro (interlaceEntry stride s) (s :: t) 0).getD (l + 1) 0)) =
      (interlaceEntry stride s).map (fun l => work.getD (ro + l) 0) ∧
    (∀ i, i < flat.length →
      vAccumAt (vXorAux (S + 1) ((S + 1) * (hh - 1)) flat ((S + 1) * hh)) S i =
        flat.getD i 0) := by
  constructor
  · rw [xorAccumFwd, scatter_reads work ro (interlaceEntry stride s) (s :: t) 0
      (interlaceEntry_nodup stride s (by omega))
      (fun l hl => by
        have := interlaceEntry_mem_lt stride s l hl
        simp [ht]
        omega)]
    exact accAux_deltaFwd _ 0
  · intro i hi
    rcases Nat.eq_zero_or_pos hh with hh0 | hhpos
    · subst hh0
      rw [Nat.mul_zero] at hflat
      omega
    · have hh1 : hh - 1 + 1 = hh := by omega
      have hmul : (S + 1) * (hh - 1) + (S + 1) = (S + 1) * hh := by
        calc (S + 1) * (hh - 1) + (S + 1)
            = (S + 1) * (hh - 1 + 1) := (Nat.mul_succ (S + 1) (hh - 1)).symm
          _ = (S + 1) * hh := by rw [hh1]
      have hxor := vXorAux_getD (S + 1) (by omega) ((S + 1) * (hh - 1)) flat
        ((S + 1) * hh) (by omega) (by omega)
      rw [hflat] at hi
      induction i using Nat.strong_induction_on with
      | _ i ih =>
          rw [vAccumAt]
          by_cases hsm : i < S + 1
          · rw [dif_pos hsm, hxor, if_neg (by omega)]
          · rw [dif_neg hsm, hxor, if_pos (by omega),
              ih (i - (S + 1)) (by omega) (by omega)]
            exact Nat.xor_cancel_right _ _

/-- Witness for C7 at stride 2, step 1 and a 2-row flat buffer. -/
theorem C7_witness :
    xorAccumFwd ((interlaceEntry 2 1).map
        (fun l => (scatter [7, 5] 0 (interlaceEntry 2 1) (1 :: [0, 0]) 0).getD (l + 1) 0)) =
      (interlaceEntry 2 1).map (fun l => [7, 5].getD (0 + l) 0) ∧
    (∀ i, i < ([1, 2, 3, 4] : List Nat).length →
      vAccumAt (vXorAux (1 + 1) ((1 + 1) * (2 - 1)) [1, 2, 3, 4] ((1 + 1) * 2)) 1 i =
        ([1, 2, 3, 4] : List Nat).getD i 0) :=
  C7_delta_self_inverse 2 1 0 [7, 5] [0, 0] [1, 2, 3, 4] 1 2
    (by decide) (by decide) (by decide)

/-- C4 counterexample: with stride 3, step 1 (the identity permutation) and
source payload `[1,1,1]`, the code's candidate payload is `[1,0,0]` (each
byte XORed with the previous raw payload byte), while the claimed filter
(XOR with the previous already-filtered output value) would give `[1,0,1]`. -/
theorem C4_counterexample :
    scatter [0, 1, 1, 1] 1 (interlaceEntry 3 1) (1 :: List.replicate 3 0) 0 ≠
      claimedCandidate [1, 1, 1] (interlaceEntry 3 1) 1 := by decide

/-- C4 (amended): for every step `s` in `1..0x50`, the RowCandidate built by
HorizontalIX keeps its marker byte `s`, and stores, at the original payload
position of the `x`-th permuted byte, that byte XORed with the previous
permuted byte of the *source* payload (pre-filter), the first permuted byte
being unfiltered; the filtered values are scattered back to the bytes'
original positions, not laid out in permutation order. -/
theorem C4_row_candidate (stride s ro : Nat) (work t : List Nat)
    (hs : 1 ≤ s) (ht : t.length = stride) :
    (scatter work ro (interlaceEntry stride s) (s :: t) 0).getD 0 0 = s ∧
    ∀ x, x < stride →
      (scatter work ro (interlaceEntry stride s) (s :: t) 0).getD
          ((interlaceEntry stride s).getD x 0 + 1) 0 =
        (if x = 0 then 0
         else work.getD (ro + (interlaceEntry stride s).getD (x - 1) 0) 0) ^^^
          work.getD (ro + (interlaceEntry stride s).getD x 0) 0 := by
  have hlk : (interlaceEntry stride s).length = stride :=
    interlaceEntry_length stride s (by omega)
  have hbound : ∀ l ∈ interlaceEntry stride s, l + 1 < (s :: t).length := by
    intro l hl
    have := interlaceEntry_mem_lt stride s l hl
    simp [ht]
    omega
  constructor
  · rw [scatter_untouched work ro _ _ _ 0 (fun l _ => by omega)]
    rfl
  · intro x hx
    have hx2 : x < (interlaceEntry stride s).length := by omega
    have hmap := scatter_reads work ro (interlaceEntry stride s) (s :: t) 0
      (interlaceEntry_nodup stride s (by omega)) hbound
    have h1 : (scatter work ro (interlaceEntry stride s) (s :: t) 0).getD
        ((interlaceEntry stride s).getD x 0 + 1) 0 =
        (List.map (fun l => (scatter work ro (interlaceEntry stride s) (s :: t) 0).getD
          (l + 1) 0) (interlaceEntry stride s)).getD x 0 :=
      (getD_map_lt (fun l => (scatter work ro (interlaceEntry stride s) (s :: t) 0).getD
        (l + 1) 0) (interlaceEntry stride s) x hx2).symm
    have hg : ∀ y, y < (interlaceEntry stride s).length →
        (List.map (fun l => work.getD (ro + l) 0) (interlaceEntry stride s)).getD y 0 =
          work.getD (ro + (interlaceEntry stride s).getD y 0) 0 :=
      fun y hy => getD_map_lt (fun l => work.getD (ro + l) 0) (interlaceEntry stride s) y hy
    rw [h1, hmap, deltaFwd_getD _ _ _ (by simpa using hx2)]
    rcases Nat.eq_zero_or_pos x with hx0 | hxpos
    · subst hx0
      rw [if_pos rfl, if_pos rfl, hg 0 hx2]
    · rw [if_neg (by omega), if_neg (by omega), hg x hx2, hg (x - 1) (by omega)]

/-- Witness for C4 at stride 3, step 1. -/
theorem C4_witness :
    (scatter [0, 1, 1, 1] 1 (interlaceEntry 3 1) (1 :: List.replicate 3 0) 0).getD 0 0 = 1 ∧
    ∀ x, x < 3 →
      (scatter [0, 1, 1, 1] 1 (interlaceEntry 3 1) (1 :: List.replicate 3 0) 0).getD
          ((interlaceEntry 3 1).getD x 0 + 1) 0 =
        (if x = 0 then 0
         else [0, 1, 1, 1].getD (1 + (interlaceEntry 3 1).getD (x - 1) 0) 0) ^^^
          [0, 1, 1, 1].getD (1 + (interlaceEntry 3 1).getD x 0) 0 :=
  C4_row_candidate 3 1 1 [0, 1, 1, 1] (List.replicate 3 0) (by decide) (by decide)

theorem and7 (n : Nat) : n &&& 7 = n % 8 := by
  have h := Nat.and_pow_two_sub_one_eq_mod n 3
  norm_num at h
  exact h

theorem nzCount_cons (b : Nat) (l : List Nat) :
    nzCount (b :: l) = (if b ≠ 0 then 1 else 0) + nzCount l := by
  by_cases hb : b = 0 <;> simp [nzCount, List.filter_cons, hb] <;> omega

theorem chunk8_nil (fuel : Nat) : chunk8 fuel [] = [] := by
  cases fuel <;> rfl

theorem bitsAux_align_mod :
    ∀ (l : List Nat) (z : Nat) (bits : Int) (al : Nat),
      bitsAux l z bits al = bitsAux l z bits (al % 8) := by
  intro l z bits al
  cases l with
  | nil => rfl
  | cons b rest =>
      simp only [bitsAux, and7]
      have h1 : (al + 1) % 8 = (al % 8 + 1) % 8 := by omega
      rw [h1]

theorem bitsAux_short :
    ∀ (blk : List Nat) (z : Nat) (bits : Int) (al : Nat), z + blk.length ≤ 7 →
      bitsAux blk z bits al = bits + 8 * (nzCount blk : Int) := by
  intro blk
  induction blk with
  | nil => intro z bits al _; simp [bitsAux, nzCount]
  | cons b rest ih =>
      intro z bits al hz
      rw [List.length_cons] at hz
      simp only [bitsAux, and7]
      by_cases hb : b = 0
      · have hz1 : (z + 1) % 8 = z + 1 := by omega
        simp only [hb, if_neg (by omega : ¬ (0 : Nat) ≠ 0), ne_eq, not_true_eq_false,
          if_false, ite_false, hz1, if_neg (by omega : ¬ z + 1 = 0)]
        by_cases hal : (al + 1) % 8 = 0
        · rw [if_pos hal, ih 0 bits _ (by omega), nzCount_cons]
          simp [hb]
        · rw [if_neg hal, ih (z + 1) bits _ (by omega), nzCount_cons]
          simp [hb]
      · simp only [ne_eq, hb, not_false_eq_true, if_true, if_pos]
        by_cases hal : (al + 1) % 8 = 0
        · rw [if_pos hal, ih 0 (bits + 8) _ (by omega), nzCount_cons]
          simp [hb]
          omega
        · rw [if_neg hal]
          have : (if (al + 1) % 8 = 0 then 0 else 0) = 0 := by simp
          rw [ih _ (bits + 8) _ (by omega), nzCount_cons]
          simp [hb]
          omega

theorem bitsAux_cons (b : Nat) (rest : List Nat) (z : Nat) (bits : Int) (al : Nat) :
    bitsAux (b :: rest) z bits al =
      bitsAux rest
        (if (al + 1) % 8 = 0 then 0 else if b ≠ 0 then 0 else (z + 1) % 8)
        (if b ≠ 0 then bits + 8 else if (z + 1) % 8 = 0 then bits - 8 else bits)
        ((al + 1) % 8) := by
  by_cases hb : b = 0 <;> simp [bitsAux, and7, hb]

theorem bitsAux_chunk :
    ∀ (blk : List Nat) (rest : List Nat) (z : Nat) (bits : Int) (al : Nat),
      0 < blk.length → z + blk.length ≤ 8 → al + blk.length = 8 →
      bitsAux (blk ++ rest) z bits al =
        bitsAux rest 0
          (bits + 8 * (nzCount blk : Int) -
            (if z + blk.length = 8 ∧ blk.all (fun b => b = 0) then 8 else 0)) 0 := by
  intro blk
  induction blk with
  | nil => intro rest z bits al h0 _ _; simp at h0
  | cons b blk ih =>
      intro rest z bits al h0 hz hal
      rw [List.length_cons] at hz hal
      rw [List.cons_append, bitsAux_cons]
      cases blk with
      | nil =>
          -- last byte of the group: the alignment boundary fires.
          have hal7 : al = 7 := by simp at hal; omega
          have hbnd : (al + 1) % 8 = 0 := by omega
          rw [List.nil_append, hbnd, if_pos rfl]
          by_cases hb : b = 0
          · rw [if_neg (show ¬ b ≠ 0 by simp [hb])]
            by_cases hz7 : z = 7
            · have hz8 : (z + 1) % 8 = 0 := by omega
              rw [hz8, if_pos rfl, if_pos ⟨by simp; omega, by simp [hb]⟩]
              have hnz : (nzCount [b] : Int) = 0 := by simp [nzCount, hb]
              rw [hnz]
              norm_num
            · have hz8 : (z + 1) % 8 = z + 1 := by omega
              rw [hz8, if_neg (by omega), if_neg (by
                intro hcon
                have := hcon.1
                simp at this
                omega)]
              have hnz : (nzCount [b] : Int) = 0 := by simp [nzCount, hb]
              rw [hnz]
              norm_num
          · rw [if_pos (by simp [hb]), if_neg (by
              intro hcon
              have := hcon.2
              simp [hb] at this)]
            have hnz : (nzCount [b] : Int) = 1 := by simp [nzCount, hb]
            rw [hnz]
            norm_num
      | cons c blk2 =>
          -- interior byte: no alignment boundary yet.
          have hlen : (c :: blk2).length = blk2.length + 1 := rfl
          have hA : (al + 1) % 8 = al + 1 := by simp [hlen] at hal; omega
          rw [hA, if_neg (by simp [hlen] at hal; omega)]
          by_cases hb : b = 0
          · have hz1 : (z + 1) % 8 = z + 1 := by simp [hlen] at hz; omega
            rw [if_neg (by simp [hb]), if_neg (by simp [hb]), hz1,
              if_neg (by simp [hlen] at hz; omega)]
            rw [ih rest (z + 1) bits (al + 1) (by simp) (by simp [hlen] at hz ⊢; omega)
              (by simp [hlen] at hal ⊢; omega)]
            have hnz : (nzCount (b :: c :: blk2) : Int) = nzCount (c :: blk2) := by
              rw [nzCount_cons]
              simp [hb]
            by_cases hall : ((c :: blk2).all fun x => x = 0) = true
            · by_cases hlen8 : z + 1 + (c :: blk2).length = 8
              · rw [if_pos ⟨hlen8, hall⟩, if_pos (by
                  refine ⟨by simp at hlen8 ⊢; omega, ?_⟩
                  simp [hb]
                  simpa using hall), hnz]
              · rw [if_neg (fun hcon => hlen8 hcon.1), if_neg (by
                  intro hcon
                  have := hcon.1
                  simp at this
                  refine hlen8 (by simp; omega)), hnz]
            · rw [if_neg (fun hcon => hall hcon.2), if_neg (by
                intro hcon
                have := hcon.2
                simp [hb] at this
                exact hall (by simpa using this)), hnz]
          · rw [if_pos (by simp [hb]), if_pos (by simp [hb])]
            rw [ih rest 0 (bits + 8) (al + 1) (by simp) (by simp [hlen] at hz ⊢; omega)
              (by simp [hlen] at hal ⊢; omega)]
            have hnz : (nzCount (b :: c :: blk2) : Int) = nzCount (c :: blk2) + 1 := by
              rw [nzCount_cons]
              simp [hb]
              omega
            rw [hnz, if_neg (by
                intro hcon
                have := hcon.1
                simp at this
                omega), if_neg (by
                intro hcon
                have := hcon.2
                simp [hb] at this)]
            have hbits : bits + 8 + 8 * (nzCount (c :: blk2) : Int) - 0 =
                bits + 8 * ((nzCount (c :: blk2) : Int) + 1) - 0 := by ring
            rw [hbits]

theorem bitsAux_chunks :
    ∀ (fuel : Nat) (l : List Nat) (bits : Int), l.length ≤ fuel →
      bitsAux l 0 bits 0 = bits + ((chunk8 fuel l).map groupCost).sum := by
  intro fuel
  induction fuel with
  | zero =>
      intro l bits hl
      have : l = [] := List.eq_nil_of_length_eq_zero (by omega)
      subst this
      simp [bitsAux, chunk8]
  | succ fuel ih =>
      intro l bits hl
      cases l with
      | nil => simp [bitsAux, chunk8]
      | cons x xs =>
          have hch : chunk8 (fuel + 1) (x :: xs) =
              (x :: xs).take 8 :: chunk8 fuel ((x :: xs).drop 8) := rfl
          rcases Nat.lt_or_ge (x :: xs).length 8 with hshort | hlong
          · have ht : (x :: xs).take 8 = x :: xs := List.take_of_length_le (by omega)
            have hd : (x :: xs).drop 8 = [] := List.drop_eq_nil_of_le (by omega)
            rw [bitsAux_short _ 0 bits 0 (by omega), hch, ht, hd, chunk8_nil,
              List.map_cons, List.map_nil, List.sum_cons, List.sum_nil]
            rw [groupCost, if_neg (fun hcon => absurd hcon.1 (by omega))]
            omega
          · have ht8 : ((x :: xs).take 8).length = 8 := by
              rw [List.length_take]
              omega
            conv_lhs => rw [← List.take_append_drop 8 (x :: xs)]
            rw [bitsAux_chunk ((x :: xs).take 8) ((x :: xs).drop 8) 0 bits 0
              (by rw [ht8]; omega) (by rw [ht8]) (by rw [ht8])]
            rw [ih ((x :: xs).drop 8) _ (by rw [List.length_drop]; omega)]
            rw [hch, List.map_cons, List.sum_cons]
            rw [groupCost]
            by_cases hall : (((x :: xs).take 8).all fun b => b = 0) = true
            · rw [if_pos ⟨by omega, hall⟩, if_pos ⟨ht8, hall⟩]
              ring
            · rw [if_neg (fun hcon => hall hcon.2), if_neg (fun hcon => hall hcon.2)]
              ring

/-- C6 (amended): the per-row estimate computed by HorizontalIX over the
`stride+1` candidate bytes equals the sum, over the aligned groups of the
row (a first group of `8 - rowstart mod 8` bytes, then 8-byte groups,
alignment tracked relative to `rowstart`), of 8 bits per nonzero byte MINUS
an 8-bit refund for every group of exactly 8 bytes that are all zero.
Groups containing nonzero bytes carry no flag-overhead term, so the
estimate is a relative cost, not the spec's absolute two-level flag cost. -/
theorem C6_row_cost_model (row : List Nat) (rowstart : Nat) :
    rowBits row rowstart = ((groupsOf row rowstart).map groupCost).sum := by
  rw [rowBits, bitsAux_align_mod]
  have hf1 : 1 ≤ 8 - rowstart % 8 := by omega
  have hf8 : 8 - rowstart % 8 ≤ 8 := by omega
  rcases Nat.lt_or_ge row.length (8 - rowstart % 8) with hshort | hlong
  · have ht : row.take (8 - rowstart % 8) = row := List.take_of_length_le (by omega)
    have hd : row.drop (8 - rowstart % 8) = [] := List.drop_eq_nil_of_le (by omega)
    rw [groupsOf]
    simp only [ht, hd, chunk8_nil, List.map_cons, List.map_nil, List.sum_cons, List.sum_nil]
    rw [bitsAux_short _ 0 0 _ (by omega), groupCost,
      if_neg (fun hcon => absurd hcon.1 (by omega))]
    omega
  · have ht8 : (row.take (8 - rowstart % 8)).length = 8 - rowstart % 8 := by
      rw [List.length_take]
      omega
    conv_lhs => rw [← List.take_append_drop (8 - rowstart % 8) row]
    rw [bitsAux_chunk (row.take (8 - rowstart % 8)) (row.drop (8 - rowstart % 8)) 0 0
      (rowstart % 8) (by rw [ht8]; omega) (by rw [ht8]; omega) (by rw [ht8]; omega)]
    rw [bitsAux_chunks row.length _ _ (by rw [List.length_drop]; omega)]
    rw [groupsOf]
    simp only [List.map_cons, List.sum_cons]
    rw [groupCost]
    by_cases hall : ((row.take (8 - rowstart % 8)).all fun b => b = 0) = true
    · by_cases hfull : 8 - rowstart % 8 = 8
      · rw [if_pos ⟨by omega, hall⟩, if_pos ⟨by omega, hall⟩]
        ring
      · rw [if_neg (by intro hcon; omega), if_neg (by intro hcon; omega)]
        ring
    · rw [if_neg (fun hcon => hall hcon.2), if_neg (fun hcon => hall hcon.2)]
      ring

/-- C6 counterexample: on the five-byte row `[1,0,0,0,0]` at rowstart 1 the
code's estimate is 8 bits (one nonzero byte, no all-zero aligned group),
while the spec's model — which charges 8 bits of flag overhead for the
aligned group containing the nonzero byte — gives 16 bits. -/
theorem C6_counterexample :
    rowBits [1, 0, 0, 0, 0] 1 ≠ specRowBits [1, 0, 0, 0, 0] 1 := by decide

theorem setGetD_eq' {α : Type} (l : List α) (i : Nat) (v d : α) (h : i < l.length) :
    (l.set i v).getD i d = v := by
  simp [List.getD_eq_getElem?_getD, List.getElem?_set, h]

theorem setGetD_ne' {α : Type} (l : List α) {i j : Nat} (v d : α) (h : i ≠ j) :
    (l.set i v).getD j d = l.getD j d := by
  simp [List.getD_eq_getElem?_getD, List.getElem?_set, h]

theorem buildCands_getD (work : List Nat) (ro : Nat) (lk : Nat → Option (List Nat)) :
    ∀ (l : List Nat) (rb : List (List Nat)) (s : Nat), l.Nodup → (∀ x ∈ l, x < rb.length) →
      (buildCands work ro lk l rb).getD s [] =
        if s ∈ l ∧ s ≠ 0 then scatter work ro ((lk s).getD []) (rb.getD s []) 0
        else rb.getD s [] := by
  intro l
  induction l with
  | nil =>
      intro rb s _ _
      rw [buildCands, if_neg (by simp)]
  | cons a rest ih =>
      intro rb s hnd hlt
      rw [buildCands]
      by_cases ha : a = 0
      · subst ha
        rw [if_pos rfl, ih rb s (List.nodup_cons.mp hnd).2
          (fun x hx => hlt x (List.mem_cons_of_mem _ hx))]
        by_cases hs : s ∈ rest ∧ s ≠ 0
        · rw [if_pos hs, if_pos ⟨List.mem_cons_of_mem _ hs.1, hs.2⟩]
        · rw [if_neg hs, if_neg (by
            intro hcon
            refine hs ⟨?_, hcon.2⟩
            rcases List.mem_cons.mp hcon.1 with rfl | hmem
            · exact absurd rfl hcon.2
            · exact hmem)]
      · rw [if_neg ha, ih _ s (List.nodup_cons.mp hnd).2
          (fun x hx => by
            rw [List.length_set]
            exact hlt x (List.mem_cons_of_mem _ hx))]
        have hanr : a ∉ rest := (List.nodup_cons.mp hnd).1
        by_cases hs : s ∈ rest ∧ s ≠ 0
        · have hsa : s ≠ a := fun hcon => hanr (hcon ▸ hs.1)
          rw [if_pos hs, if_pos ⟨List.mem_cons_of_mem _ hs.1, hs.2⟩,
            setGetD_ne' rb _ [] (fun hcon => hsa hcon.symm)]
        · by_cases hsa : s = a
          · subst hsa
            rw [if_neg hs, if_pos ⟨List.mem_cons_self _ _, ha⟩,
              setGetD_eq' rb s _ [] (hlt s (List.mem_cons_self _ _))]
          · rw [if_neg hs, if_neg (by
              intro hcon
              rcases List.mem_cons.mp hcon.1 with rfl | hmem
              · exact hsa rfl
              · exact hs ⟨hmem, hcon.2⟩),
              setGetD_ne' rb _ [] (fun hcon => hsa hcon.symm)]

theorem bitsAux_le :
    ∀ (l : List Nat) (z : Nat) (bits : Int) (al : Nat),
      bitsAux l z bits al ≤ bits + 8 * (l.length : Int) := by
  intro l
  induction l with
  | nil => intro z bits al; simp [bitsAux]
  | cons b rest ih =>
      intro z bits al
      rw [bitsAux_cons]
      have h1 := ih (if (al + 1) % 8 = 0 then 0 else if b ≠ 0 then 0 else (z + 1) % 8)
        (if b ≠ 0 then bits + 8 else if (z + 1) % 8 = 0 then bits - 8 else bits)
        ((al + 1) % 8)
      have h2 : (if b ≠ 0 then bits + 8 else if (z + 1) % 8 = 0 then bits - 8 else bits) ≤
          bits + 8 := by
        split_ifs <;> omega
      rw [List.length_cons]
      push_cast
      omega

theorem selectAux_append (f : Nat → Int) :
    ∀ (l1 l2 : List Nat) (st : Int × Nat),
      selectAux f (l1 ++ l2) st = selectAux f l2 (selectAux f l1 st) := by
  intro l1
  induction l1 with
  | nil => intro l2 st; rfl
  | cons a rest ih => intro l2 st; rw [List.cons_append, selectAux, selectAux, ih]

theorem selectAux_range_spec (f : Nat → Int) :
    ∀ (n : Nat) (bb : Int) (bh : Nat),
      (selectAux f (List.range n) (bb, bh) = (bb, bh) ∧ ∀ s, s < n → bb ≤ f s) ∨
      ((selectAux f (List.range n) (bb, bh)).2 < n ∧
        f (selectAux f (List.range n) (bb, bh)).2 =
          (selectAux f (List.range n) (bb, bh)).1 ∧
        (selectAux f (List.range n) (bb, bh)).1 < bb ∧
        (∀ s, s < n → (selectAux f (List.range n) (bb, bh)).1 ≤ f s) ∧
        (∀ s, s < (selectAux f (List.range n) (bb, bh)).2 →
          (selectAux f (List.range n) (bb, bh)).1 < f s)) := by
  intro n
  induction n with
  | zero => intro bb bh; left; exact ⟨rfl, fun s hs => by omega⟩
  | succ n ih =>
      intro bb bh
      rw [List.range_succ, selectAux_append]
      rcases ih bb bh with ⟨heq, hall⟩ | ⟨hlt, hfeq, hless, hmin, hfirst⟩
      · rw [heq]
        show (selectAux f [n] (bb, bh) = (bb, bh) ∧ _) ∨ _
        rw [selectAux, selectAux]
        by_cases hfn : f n < bb
        · right
          rw [if_pos hfn]
          refine ⟨by omega, rfl, hfn, fun s hs => ?_, fun s hs => ?_⟩
          · rcases Nat.lt_or_ge s n with h2 | h2
            · exact le_trans (le_of_lt hfn) (hall s h2)
            · have : s = n := by omega
              subst this
              exact le_refl _
          · exact lt_of_lt_of_le hfn (hall s (by simp at hs; omega))
        · left
          rw [if_neg hfn]
          refine ⟨rfl, fun s hs => ?_⟩
          rcases Nat.lt_or_ge s n with h2 | h2
          · exact hall s h2
          · have : s = n := by omega
            subst this
            omega
      · cases hst : selectAux f (List.range n) (bb, bh) with
        | mk b1 h1 =>
            rw [hst] at hlt hfeq hless hmin hfirst
            simp only at hlt hfeq hless hmin hfirst
            rw [selectAux, selectAux]
            by_cases hfn : f n < b1
            · right
              rw [if_pos hfn]
              refine ⟨by omega, rfl, by omega, fun s hs => ?_, fun s hs => ?_⟩
              · rcases Nat.lt_or_ge s n with h2 | h2
                · exact le_trans (le_of_lt hfn) (hmin s h2)
                · have : s = n := by omega
                  subst this
                  exact le_refl _
              · simp only at hs
                exact lt_of_lt_of_le hfn (hmin s (by omega))
            · right
              rw [if_neg hfn]
              refine ⟨by omega, hfeq, hless, fun s hs => ?_, hfirst⟩
              rcases Nat.lt_or_ge s n with h2 | h2
              · exact hmin s h2
              · have : s = n := by omega
                subst this
                omega

set_option maxHeartbeats 1000000 in
/-- C8: among the candidate horizontal steps 0..0x50, hRow keeps the
candidate with the lowest estimated bit cost; when two candidates have the
same estimated cost, the lower-numbered step (examined first, strict `<`
comparison) is chosen; and the row's marker and payload in the work buffer
are overwritten with the winning candidate.  `rb1` is the rebuilt candidate
table, `f` the per-step cost and `best` the selected step. -/
theorem C8_horizontal_selection (stride : Nat) (lk : Nat → Option (List Nat))
    (work : List Nat) (rb : List (List Nat)) (rowstart : Nat)
    (hrb : rb.length = 0x51) (hlen0 : (rb.getD 0 []).length = stride + 1)
    (hwork : rowstart + stride ≤ work.length) (hstride : stride ≤ 320)
    (rb1 : List (List Nat)) (hrb1h : rb1 = (hRow stride lk work rb rowstart).2)
    (f : Nat → Int) (hf : f = fun u => rowBits (rb1.getD u []) rowstart)
    (best : Nat) (hbest : best = (selectAux f hrz_steps (0xFFFF, 0)).2) :
    (∀ s, s ≤ 0x50 → f best ≤ f s) ∧
    (∀ s, s ≤ 0x50 → f s = f best → best ≤ s) ∧
    (hRow stride lk work rb rowstart).1 = setSlice work (rowstart - 1) (rb1.getD best []) := by
  have hrb1 : rb1 = buildCands work rowstart lk hrz_steps
      (rb.set 0 (setSlice (rb.getD 0 []) 1 ((work.drop rowstart).take stride))) := by
    rw [hrb1h]
    simp only [hRow]
  have hpayload : ((work.drop rowstart).take stride).length = stride := by
    simp
    omega
  have hcand0 : rb1.getD 0 [] =
      setSlice (rb.getD 0 []) 1 ((work.drop rowstart).take stride) := by
    rw [hrb1, buildCands_getD work rowstart lk hrz_steps _ 0
      (by rw [hrz_steps]; exact List.nodup_range _)
      (fun x hx => by
        rw [List.length_set, hrb]
        rw [hrz_steps] at hx
        exact List.mem_range.mp hx),
      if_neg (by simp)]
    exact setGetD_eq' rb 0 _ [] (by omega)
  have hc0len : (rb1.getD 0 []).length = stride + 1 := by
    rw [hcand0, setSlice_length _ _ _ (by rw [hpayload, hlen0]; omega), hlen0]
  have hwrite : (hRow stride lk work rb rowstart).1 =
      setSlice work (rowstart - 1) (rb1.getD best []) := by
    rw [hbest, hf, hrb1]
    simp only [hRow]
  rw [hrz_steps] at hbest
  have hf0 : f 0 < 0xFFFF := by
    have h1 : f 0 ≤ 0 + 8 * ((rb1.getD 0 []).length : Int) := by
      simp only [hf]
      exact bitsAux_le _ 0 0 rowstart
    rw [hc0len] at h1
    push_cast at h1
    omega
  rcases selectAux_range_spec f 0x51 0xFFFF 0 with ⟨_, hall⟩ | ⟨_, hfeq, _, hmin, hfirst⟩
  · exact absurd (hall 0 (by omega)) (by omega)
  · refine ⟨fun s hs => ?_, fun s hs hfs => ?_, hwrite⟩
    · rw [hbest]
      exact le_trans (le_of_eq hfeq) (hmin s (by omega))
    · by_contra hcon
      push_neg at hcon
      rw [hbest] at hcon
      have h2 : (selectAux f (List.range 0x51) (0xFFFF, 0)).1 < f s := hfirst s hcon
      have h3 : f best = (selectAux f (List.range 0x51) (0xFFFF, 0)).1 := by
        rw [hbest]
        exact hfeq
      omega

set_option maxHeartbeats 2000000 in
/-- Witness for C8 at stride 2, a single 3-byte row. -/
theorem C8_witness :
    let rb1 := (hRow 2 (MakeInterlaceTable 2 hrz_steps) [9, 3, 5] (initRb 2) 1).2
    let f : Nat → Int := fun u => rowBits (rb1.getD u []) 1
    let best := (selectAux f hrz_steps (0xFFFF, 0)).2
    (∀ s, s ≤ 0x50 → f best ≤ f s) ∧
    (∀ s, s ≤ 0x50 → f s = f best → best ≤ s) ∧
    (hRow 2 (MakeInterlaceTable 2 hrz_steps) [9, 3, 5] (initRb 2) 1).1 =
      setSlice [9, 3, 5] (1 - 1)
        ((hRow 2 (MakeInterlaceTable 2 hrz_steps) [9, 3, 5] (initRb 2) 1).2.getD
          ((selectAux (fun u => rowBits
            ((hRow 2 (MakeInterlaceTable 2 hrz_steps) [9, 3, 5] (initRb 2) 1).2.getD u []) 1)
            hrz_steps (0xFFFF, 0)).2) []) :=
  C8_horizontal_selection 2 (MakeInterlaceTable 2 hrz_steps) [9, 3, 5] (initRb 2) 1
    (by decide) (by decide) (by decide) (by decide)
    (hRow 2 (MakeInterlaceTable 2 hrz_steps) [9, 3, 5] (initRb 2) 1).2 rfl
    (fun u => rowBits
      ((hRow 2 (MakeInterlaceTable 2 hrz_steps) [9, 3, 5] (initRb 2) 1).2.getD u []) 1) rfl
    ((selectAux (fun u => rowBits
      ((hRow 2 (MakeInterlaceTable 2 hrz_steps) [9, 3, 5] (initRb 2) 1).2.getD u []) 1)
      hrz_steps (0xFFFF, 0)).2) rfl

theorem pySet_length (l : List Nat) (p : Int) (v : Nat) : (pySet l p v).length = l.length := by
  rw [pySet]
  split_ifs <;> rw [List.length_set]

theorem pySet_lt (l : List Nat) (p : Int) (v : Nat) (i : Nat) (h : (i : Int) < p) :
    (pySet l p v).getD i 0 = l.getD i 0 := by
  rw [pySet, if_pos (by omega)]
  exact setGetD_ne l v (by omega)

theorem encStep_shape (work : List Nat) (r : Nat) (s : EncSt) :
    ((encStep work r s).bLeft = if s.bLeft - 1 = 0 then 8 else s.bLeft - 1) ∧
    ((encStep work r s).aLeft = if s.bLeft - 1 = 0 then
        (if s.aLeft - 1 = 0 then 8 else s.aLeft - 1) else s.aLeft) ∧
    s.wofs - 1 - (if s.bLeft - 1 = 0 then 1 + (if s.aLeft - 1 = 0 then 1 else 0) else 0) ≤
      (encStep work r s).wofs ∧
    (encStep work r s).wofs ≤ s.wofs ∧
    (encStep work r s).buf.length = s.buf.length ∧
    (∀ i : Nat, (i : Int) < (encStep work r s).wofs →
      (encStep work r s).buf.getD i 0 = s.buf.getD i 0) := by
  simp only [encStep]
  split_ifs with h1 h2 h3 h4 <;>
    refine ⟨by simp, by simp, by (simp; all_goals omega), by (simp; all_goals omega),
      by simp [pySet_length], ?_⟩ <;>
    intro i hi <;>
    simp only [] at hi ⊢ <;>
    (repeat rw [pySet_lt _ _ _ _ (by omega)])

theorem encLoop_wofs_le (work : List Nat) :
    ∀ (r : Nat) (s : EncSt), (encLoop work r s).wofs ≤ s.wofs := by
  intro r
  induction r with
  | zero => intro s; exact le_refl _
  | succ r ih =>
      intro s
      rw [encLoop]
      exact le_trans (ih (encStep work r s)) (encStep_shape work r s).2.2.2.1

theorem encLoop_buf_length (work : List Nat) :
    ∀ (r : Nat) (s : EncSt), (encLoop work r s).buf.length = s.buf.length := by
  intro r
  induction r with
  | zero => intro s; rfl
  | succ r ih =>
      intro s
      rw [encLoop, ih (encStep work r s), (encStep_shape work r s).2.2.2.2.1]

theorem encLoop_untouched (work : List Nat) :
    ∀ (r : Nat) (s : EncSt) (i : Nat), (i : Int) < (encLoop work r s).wofs →
      (encLoop work r s).buf.getD i 0 = s.buf.getD i 0 := by
  intro r
  induction r with
  | zero => intro s i _; rfl
  | succ r ih =>
      intro s i hi
      rw [encLoop] at hi ⊢
      rw [ih (encStep work r s) i hi]
      refine (encStep_shape work r s).2.2.2.2.2 i ?_
      exact lt_of_lt_of_le hi (encLoop_wofs_le work r (encStep work r s))

theorem encLoop_wofs_ge (work : List Nat) :
    ∀ (r : Nat) (s : EncSt), 1 ≤ s.bLeft → s.bLeft ≤ 8 → 1 ≤ s.aLeft → s.aLeft ≤ 8 →
      s.wofs - (r : Int) - (countB r s.bLeft : Int) - (countA r s.bLeft s.aLeft : Int) ≤
        (encLoop work r s).wofs := by
  intro r
  induction r with
  | zero =>
      intro s _ _ _ _
      simp [encLoop, countB, countA]
  | succ r ih =>
      intro s hb1 hb8 ha1 ha8
      rw [encLoop]
      obtain ⟨hsb, hsa, hwge, _, _, _⟩ := encStep_shape work r s
      have hb1' : 1 ≤ (encStep work r s).bLeft := by rw [hsb]; split_ifs <;> omega
      have hb8' : (encStep work r s).bLeft ≤ 8 := by rw [hsb]; split_ifs <;> omega
      have ha1' : 1 ≤ (encStep work r s).aLeft := by
        rw [hsa]; split_ifs <;> omega
      have ha8' : (encStep work r s).aLeft ≤ 8 := by
        rw [hsa]; split_ifs <;> omega
      have hih := ih (encStep work r s) hb1' hb8' ha1' ha8'
      have hcb : countB (r + 1) s.bLeft =
          (if s.bLeft - 1 = 0 then 1 else 0) + countB r (encStep work r s).bLeft := by
        rw [hsb, countB]
        by_cases hb : s.bLeft = 1
        · rw [hb]
          simp
        · rw [if_neg hb, if_neg (by omega)]
          have : s.bLeft - 1 ≠ 0 := by omega
          simp [this]
      have hca : countA (r + 1) s.bLeft s.aLeft =
          (if s.bLeft - 1 = 0 then (if s.aLeft - 1 = 0 then 1 else 0) else 0) +
            countA r (encStep work r s).bLeft (encStep work r s).aLeft := by
        rw [hsb, hsa, countA]
        by_cases hb : s.bLeft = 1
        · by_cases ha : s.aLeft = 1
          · rw [hb, ha]
            simp
          · rw [hb]
            have h1 : s.aLeft - 1 ≠ 0 := by omega
            simp [ha, h1]
        · rw [if_neg hb]
          have h1 : s.bLeft - 1 ≠ 0 := by omega
          simp [h1]
      rw [hcb, hca]
      push_cast
      split_ifs at hwge ⊢ <;> omega

theorem countB_eq :
    ∀ (r b : Nat), 1 ≤ b → b ≤ 8 → countB r b = (r + 8 - b) / 8 := by
  intro r
  induction r with
  | zero => intro b hb1 hb8; rw [countB]; omega
  | succ r ih =>
      intro b hb1 hb8
      rw [countB]
      by_cases hb : b = 1
      · rw [if_pos hb, ih 8 (by omega) (by omega), hb]
        omega
      · rw [if_neg hb, ih (b - 1) (by omega) (by omega)]
        have h1 : r + 8 - (b - 1) = r + 1 + 8 - b := by omega
        rw [h1]

theorem countA_eq :
    ∀ (r b a : Nat), 1 ≤ b → b ≤ 8 → 1 ≤ a → a ≤ 8 →
      countA r b a = ((r + 8 - b) / 8 + 8 - a) / 8 := by
  intro r
  induction r with
  | zero => intro b a hb1 hb8 ha1 ha8; rw [countA]; omega
  | succ r ih =>
      intro b a hb1 hb8 ha1 ha8
      rw [countA]
      by_cases hb : b = 1
      · subst hb
        by_cases ha : a = 1
        · subst ha
          rw [if_pos rfl, if_pos rfl, ih 8 8 (by omega) (by omega) (by omega) (by omega)]
          omega
        · rw [if_pos rfl, if_neg ha, ih 8 (a - 1) (by omega) (by omega) (by omega) (by omega)]
          omega
      · rw [if_neg hb, ih (b - 1) a (by omega) (by omega) ha1 ha8]
        have h1 : r + 8 - (b - 1) = r + 1 + 8 - b := by omega
        rw [h1]

/-- C1 (amended): Encode performs at most `L + ceil(L/8) + ceil(L/64)`
writes for a work buffer of length `L` — one literal per source byte, one
flagB byte per 8-byte group and one flagA byte per 64-byte group, partial
groups included.  With the destination preallocated at least that large the
returned start offset is nonnegative, never exceeds the buffer length, the
buffer length is preserved, and no byte below the returned offset is
touched, so every write lands inside the buffer.  The code's actual
allocation `L * 8 / 7` is smaller than this bound for some `L`, and the
original claim fails there (see the counterexample). -/
theorem C1_encode_capacity (work buf : List Nat)
    (hcap : work.length + (work.length + 7) / 8 + (work.length + 63) / 64 ≤ buf.length) :
    0 ≤ (Encode work buf).1 ∧ (Encode work buf).1 ≤ (buf.length : Int) ∧
    (Encode work buf).2.length = buf.length ∧
    (∀ i : Nat, (i : Int) < (Encode work buf).1 →
      (Encode work buf).2.getD i 0 = buf.getD i 0) := by
  rw [Encode]
  simp only [and7, Nat.shiftRight_eq_div_pow]
  have h8 : (2 : Nat) ^ 3 = 8 := by norm_num
  rw [h8]
  have hb1 : 1 ≤ (if work.length % 8 = 0 then 8 else work.length % 8) := by
    split_ifs <;> omega
  have hb8 : (if work.length % 8 = 0 then 8 else work.length % 8) ≤ 8 := by
    split_ifs <;> omega
  have ha1 : 1 ≤ (if (work.length + 7) / 8 % 8 = 0 then 8 else (work.length + 7) / 8 % 8) := by
    split_ifs <;> omega
  have ha8 : (if (work.length + 7) / 8 % 8 = 0 then 8 else (work.length + 7) / 8 % 8) ≤ 8 := by
    split_ifs <;> omega
  set s0 : EncSt := ⟨0, 0,
    if (work.length + 7) / 8 % 8 = 0 then 8 else (work.length + 7) / 8 % 8,
    if work.length % 8 = 0 then 8 else work.length % 8,
    (buf.length : Int), buf⟩ with hs0
  have hge := encLoop_wofs_ge work work.length s0 hb1 hb8 ha1 ha8
  have hle := encLoop_wofs_le work work.length s0
  have hcb := countB_eq work.length s0.bLeft hb1 hb8
  have hca := countA_eq work.length s0.bLeft s0.aLeft hb1 hb8 ha1 ha8
  have hcb2 : countB work.length s0.bLeft = (work.length + 7) / 8 := by
    rw [hcb, hs0]
    simp only
    split_ifs <;> omega
  have hca2 : countA work.length s0.bLeft s0.aLeft = (work.length + 63) / 64 := by
    rw [hca, hs0]
    simp only
    split_ifs <;> omega
  rw [hcb2, hca2] at hge
  have hw0 : s0.wofs = (buf.length : Int) := rfl
  rw [hw0] at hge hle
  refine ⟨by push_cast at hge ⊢; omega, hle, encLoop_buf_length work work.length s0, ?_⟩
  intro i hi
  exact encLoop_untouched work work.length s0 i hi

/-- C1 counterexample: for the 8-byte all-nonzero work buffer the encoder
emits 8 literals, one flagB byte and one flagA byte — 10 bytes — but the
code preallocates only `8 * 8 / 7 = 9` bytes, so the returned start offset
is negative (the final flagA write wraps to the end of the buffer in
Python, corrupting the first literal). -/
theorem C1_counterexample :
    (Encode (List.replicate 8 1) (List.replicate (8 * 8 / 7) 0)).1 < 0 := by decide

/-- Witness for C1 at a 3-byte work buffer with a 5-byte destination. -/
theorem C1_witness :
    0 ≤ (Encode [1, 1, 1] (List.replicate 5 0)).1 ∧
    (Encode [1, 1, 1] (List.replicate 5 0)).1 ≤ ((List.replicate 5 0 : List Nat).length : Int) ∧
    (Encode [1, 1, 1] (List.replicate 5 0)).2.length = (List.replicate 5 0 : List Nat).length ∧
    (∀ i : Nat, (i : Int) < (Encode [1, 1, 1] (List.replicate 5 0)).1 →
      (Encode [1, 1, 1] (List.replicate 5 0)).2.getD i 0 =
        (List.replicate 5 0 : List Nat).getD i 0) :=
  C1_encode_capacity [1, 1, 1] (List.replicate 5 0) (by decide)

theorem encLoop_zero (work : List Nat) :
    ∀ (r : Nat) (s : EncSt), (∀ i, i < r → work.getD i 0 = 0) →
      s.flagB = 0 → s.flagA = 0 → 1 ≤ s.bLeft → s.bLeft ≤ 8 → 1 ≤ s.aLeft → s.aLeft ≤ 8 →
      (encLoop work r s).wofs = s.wofs - (countA r s.bLeft s.aLeft : Int) := by
  intro r
  induction r with
  | zero =>
      intro s _ _ _ _ _ _ _
      simp [encLoop, countA]
  | succ r ih =>
      intro s hz hfb hfa hb1 hb8 ha1 ha8
      rw [encLoop]
      have hbyte : work.getD r 0 = 0 := hz r (by omega)
      have hstep : encStep work r s =
          if s.bLeft - 1 = 0 then
            (if s.aLeft - 1 = 0 then
              ⟨0, 0, 8, 8, s.wofs - 1, pySet s.buf (s.wofs - 1) 0⟩
            else ⟨0, 0, s.aLeft - 1, 8, s.wofs, s.buf⟩)
          else ⟨s.flagA, 0, s.aLeft, s.bLeft - 1, s.wofs, s.buf⟩ := by
        rw [encStep, hbyte]
        simp [hfb, hfa]
      rw [hstep]
      have hz' : ∀ i, i < r → work.getD i 0 = 0 := fun i hi => hz i (by omega)
      by_cases hb : s.bLeft = 1
      · by_cases ha : s.aLeft = 1
        · rw [if_pos (by omega), if_pos (by omega)]
          rw [ih ⟨0, 0, 8, 8, s.wofs - 1, pySet s.buf (s.wofs - 1) 0⟩ hz' rfl rfl
            (by norm_num) (by norm_num) (by norm_num) (by norm_num)]
          have hca : countA (r + 1) s.bLeft s.aLeft = 1 + countA r 8 8 := by
            rw [countA, if_pos hb, if_pos ha]
          rw [hca]
          show s.wofs - 1 - (countA r 8 8 : Int) = s.wofs - ((1 + countA r 8 8 : Nat) : Int)
          push_cast
          ring
        · rw [if_pos (by omega), if_neg (by omega)]
          rw [ih ⟨0, 0, s.aLeft - 1, 8, s.wofs, s.buf⟩ hz' rfl rfl
            (by norm_num) (by norm_num) (by show 1 ≤ s.aLeft - 1; omega)
            (by show s.aLeft - 1 ≤ 8; omega)]
          have hca : countA (r + 1) s.bLeft s.aLeft = countA r 8 (s.aLeft - 1) := by
            rw [countA, if_pos hb, if_neg ha]
          rw [hca]
      · rw [if_neg (by omega)]
        rw [ih ⟨s.flagA, 0, s.aLeft, s.bLeft - 1, s.wofs, s.buf⟩ hz' rfl hfa
          (by show 1 ≤ s.bLeft - 1; omega) (by show s.bLeft - 1 ≤ 8; omega)
          (by show 1 ≤ s.aLeft; omega) (by show s.aLeft ≤ 8; omega)]
        have hca : countA (r + 1) s.bLeft s.aLeft = countA r (s.bLeft - 1) s.aLeft := by
          rw [countA, if_neg hb]
        rw [hca]

/-- C3 (amended): for an all-zero work buffer of length `L` the encoder is
not silent — the flagA byte is written unconditionally whenever its counter
expires, so exactly `ceil(L/64)` zero bytes are emitted (none for `L = 0`)
and the returned offset is the destination length minus `ceil(L/64)`, not
the destination length itself. -/
theorem C3_all_zero_output (work buf : List Nat) (hz : ∀ b ∈ work, b = 0) :
    (Encode work buf).1 = (buf.length : Int) - ((work.length + 63) / 64 : Nat) := by
  rw [Encode]
  simp only [and7, Nat.shiftRight_eq_div_pow]
  have h8 : (2 : Nat) ^ 3 = 8 := by norm_num
  rw [h8]
  have hb1 : 1 ≤ (if work.length % 8 = 0 then 8 else work.length % 8) := by
    split_ifs <;> omega
  have hb8 : (if work.length % 8 = 0 then 8 else work.length % 8) ≤ 8 := by
    split_ifs <;> omega
  have ha1 : 1 ≤ (if (work.length + 7) / 8 % 8 = 0 then 8 else (work.length + 7) / 8 % 8) := by
    split_ifs <;> omega
  have ha8 : (if (work.length + 7) / 8 % 8 = 0 then 8 else (work.length + 7) / 8 % 8) ≤ 8 := by
    split_ifs <;> omega
  set s0 : EncSt := ⟨0, 0,
    if (work.length + 7) / 8 % 8 = 0 then 8 else (work.length + 7) / 8 % 8,
    if work.length % 8 = 0 then 8 else work.length % 8,
    (buf.length : Int), buf⟩ with hs0
  have hz' : ∀ i, i < work.length → work.getD i 0 = 0 := by
    intro i hi
    have : work.getD i 0 ∈ work := by
      rw [List.getD_eq_getElem?_getD, List.getElem?_eq_getElem hi]
      exact List.getElem_mem hi
    exact hz _ this
  rw [encLoop_zero work work.length s0 hz' rfl rfl hb1 hb8 ha1 ha8]
  have hca := countA_eq work.length s0.bLeft s0.aLeft hb1 hb8 ha1 ha8
  have hca2 : countA work.length s0.bLeft s0.aLeft = (work.length + 63) / 64 := by
    rw [hca, hs0]
    simp only
    split_ifs <;> omega
  rw [hca2]

/-- C3 counterexample: the all-zero 8-byte work buffer with the code's
9-byte destination yields offset 8, not the destination length 9 — one
zero flagA byte is emitted. -/
theorem C3_counterexample :
    (Encode (List.replicate 8 0) (List.replicate 9 0)).1 ≠
      ((List.replicate 9 0 : List Nat).length : Int) := by decide

/-- Witness for C3 at the all-zero 8-byte work buffer. -/
theorem C3_witness :
    (Encode (List.replicate 8 0) (List.replicate 9 0)).1 =
      (((List.replicate 9 0 : List Nat).length : Int)) -
        (((List.replicate 8 0 : List Nat).length + 63) / 64 : Nat) :=
  C3_all_zero_output (List.replicate 8 0) (List.replicate 9 0) (by decide)

/-- C2 counterexample: for the accepted 2x2 single-color input the byte at
offset 0x30 of the emitted file is 16 (the first byte of the palette
dimension block, which actually lives at 0x30), not the claimed palette
pointer value 0x30 — the pointer with value 0x30 is stored at offset 0x14. -/
theorem C2_counterexample :
    (gpcFile [1, 1, 1, 1] [] 2 2 0 0).getD 0x30 0 ≠ 0x30 := by decide

set_option maxRecDepth 40000 in
/-- C2 (amended): for the accepted 2x2 single-color input the emitted file
matches the corrected layout: 15 signature characters plus a NUL at 0x00;
the vertical-step field at 0x10; the palette-block pointer (value 0x30) at
offset 0x14 and the image-descriptor pointer (value 0x54) at offset 0x18;
the palette dimensions {16,0,2,0} at 0x30 with the packed 16-entry palette
immediately after at 0x34; the image descriptor at 0x54 carrying width,
height, the compressed payload length (low 16 bits) at descriptor offset
+4, the fixed value 4 at +8, and placement X/Y at +10/+12; and the
compressed payload immediately after the descriptor at 0x64. -/
theorem C2_header_layout :
    (gpcFile [1, 1, 1, 1] [] 2 2 0 0).take 16 = sigBytes ++ [0] ∧
    (gpcFile [1, 1, 1, 1] [] 2 2 0 0).getD 0x10 0 = 2 ∧
    (gpcFile [1, 1, 1, 1] [] 2 2 0 0).getD 0x11 0 = 0 ∧
    ((gpcFile [1, 1, 1, 1] [] 2 2 0 0).drop 0x14).take 4 = [0x30, 0, 0, 0] ∧
    ((gpcFile [1, 1, 1, 1] [] 2 2 0 0).drop 0x18).take 4 = [0x54, 0, 0, 0] ∧
    ((gpcFile [1, 1, 1, 1] [] 2 2 0 0).drop 0x30).take 4 = [16, 0, 2, 0] ∧
    ((gpcFile [1, 1, 1, 1] [] 2 2 0 0).drop 0x34).take 32 =
      packPalette (palettePad []) ∧
    (gpcFile [1, 1, 1, 1] [] 2 2 0 0).getD 0x54 0 = 2 ∧
    (gpcFile [1, 1, 1, 1] [] 2 2 0 0).getD 0x55 0 = 0 ∧
    (gpcFile [1, 1, 1, 1] [] 2 2 0 0).getD 0x56 0 = 2 ∧
    (gpcFile [1, 1, 1, 1] [] 2 2 0 0).getD 0x57 0 = 0 ∧
    (gpcFile [1, 1, 1, 1] [] 2 2 0 0).getD 0x58 0 =
      (Compress (mkPlanebuf (padWidth [1, 1, 1, 1] 2 2).1 (padWidth [1, 1, 1, 1] 2 2).2)
        (padWidth [1, 1, 1, 1] 2 2).2 2).1.length &&& 0xFF ∧
    (gpcFile [1, 1, 1, 1] [] 2 2 0 0).getD 0x59 0 = 0 ∧
    (gpcFile [1, 1, 1, 1] [] 2 2 0 0).getD 0x5C 0 = 4 ∧
    (gpcFile [1, 1, 1, 1] [] 2 2 0 0).getD 0x5D 0 = 0 ∧
    (gpcFile [1, 1, 1, 1] [] 2 2 0 0).getD 0x5E 0 = 0 ∧
    (gpcFile [1, 1, 1, 1] [] 2 2 0 0).getD 0x60 0 = 0 ∧
    (gpcFile [1, 1, 1, 1] [] 2 2 0 0).drop 0x64 =
      (Compress (mkPlanebuf (padWidth [1, 1, 1, 1] 2 2).1 (padWidth [1, 1, 1, 1] 2 2).2)
        (padWidth [1, 1, 1, 1] 2 2).2 2).1 := by
  decide

theorem getD_oob (l : List Nat) (i : Nat) (h : l.length ≤ i) : l.getD i 0 = 0 := by
  rw [List.getD_eq_getElem?_getD, List.getElem?_eq_none h]
  rfl

theorem listEqOfGetD {α : Type} (d : α) :
    ∀ (l1 l2 : List α), l1.length = l2.length →
      (∀ i, i < l1.length → l1.getD i d = l2.getD i d) → l1 = l2 := by
  intro l1
  induction l1 with
  | nil =>
      intro l2 hlen _
      cases l2 with
      | nil => rfl
      | cons b t2 => simp at hlen
  | cons a t ih =>
      intro l2 hlen h
      cases l2 with
      | nil => simp at hlen
      | cons b t2 =>
          rw [List.cons_eq_cons]
          constructor
          · have h0 := h 0 (by simp)
            simpa using h0
          · refine ih t2 (by simp at hlen; omega) (fun i hi => ?_)
            have hs := h (i + 1) (by simp; omega)
            simpa using hs

theorem getD_drop (l : List Nat) (n i : Nat) : (l.drop n).getD i 0 = l.getD (n + i) 0 := by
  rw [List.getD_eq_getElem?_getD, List.getD_eq_getElem?_getD, List.getElem?_drop]

theorem getD_take (l : List Nat) (n i : Nat) (h : i < n) :
    (l.take n).getD i 0 = l.getD i 0 := by
  rw [List.getD_eq_getElem?_getD, List.getD_eq_getElem?_getD, List.getElem?_take, if_pos h]

theorem pySet_agree (b1 b2 : List Nat) (p : Int) (v : Nat)
    (hlen : b1.length = b2.length)
    (hag : ∀ j : Nat, p + 1 ≤ (j : Int) → b1.getD j 0 = b2.getD j 0) :
    ∀ i : Nat, p ≤ (i : Int) → (pySet b1 p v).getD i 0 = (pySet b2 p v).getD i 0 := by
  intro i hi
  by_cases hp : 0 ≤ p
  · rw [pySet, pySet, if_pos hp, if_pos hp]
    by_cases hip : i = p.toNat
    · subst hip
      by_cases hl : p.toNat < b1.length
      · rw [setGetD_eq _ _ _ hl, setGetD_eq _ _ _ (by omega)]
      · rw [getD_oob _ _ (by rw [List.length_set]; omega),
          getD_oob _ _ (by rw [List.length_set]; omega)]
    · rw [setGetD_ne _ _ (fun hc => hip hc.symm), setGetD_ne _ _ (fun hc => hip hc.symm)]
      exact hag i (by omega)
  · have heq : b1 = b2 := listEqOfGetD 0 b1 b2 hlen (fun j _ => hag j (by omega))
    rw [heq]

theorem pySuffix_congr (b1 b2 : List Nat) (p : Int)
    (hlen : b1.length = b2.length)
    (hag : ∀ j : Nat, p ≤ (j : Int) → b1.getD j 0 = b2.getD j 0) :
    pySuffix b1 p = pySuffix b2 p := by
  rw [pySuffix, pySuffix, hlen]
  by_cases hp : 0 ≤ p
  · rw [if_pos hp, if_pos hp]
    refine listEqOfGetD 0 _ _ (by simp [hlen]) (fun i hi => ?_)
    rw [getD_drop, getD_drop]
    exact hag _ (by omega)
  · rw [if_neg hp, if_neg hp]
    refine listEqOfGetD 0 _ _ (by simp [hlen]) (fun i hi => ?_)
    rw [getD_drop, getD_drop]
    exact hag _ (by omega)

theorem encStep_congr (work : List Nat) (r : Nat) (s : EncSt) (b2 : List Nat)
    (hlen : s.buf.length = b2.length)
    (hag : ∀ j : Nat, s.wofs ≤ (j : Int) → s.buf.getD j 0 = b2.getD j 0) :
    (encStep work r s).flagA =
      (encStep work r ⟨s.flagA, s.flagB, s.aLeft, s.bLeft, s.wofs, b2⟩).flagA ∧
    (encStep work r s).flagB =
      (encStep work r ⟨s.flagA, s.flagB, s.aLeft, s.bLeft, s.wofs, b2⟩).flagB ∧
    (encStep work r s).aLeft =
      (encStep work r ⟨s.flagA, s.flagB, s.aLeft, s.bLeft, s.wofs, b2⟩).aLeft ∧
    (encStep work r s).bLeft =
      (encStep work r ⟨s.flagA, s.flagB, s.aLeft, s.bLeft, s.wofs, b2⟩).bLeft ∧
    (encStep work r s).wofs =
      (encStep work r ⟨s.flagA, s.flagB, s.aLeft, s.bLeft, s.wofs, b2⟩).wofs ∧
    (encStep work r s).buf.length =
      (encStep work r ⟨s.flagA, s.flagB, s.aLeft, s.bLeft, s.wofs, b2⟩).buf.length ∧
    ∀ j : Nat, (encStep work r s).wofs ≤ (j : Int) →
      (encStep work r s).buf.getD j 0 =
        (encStep work r ⟨s.flagA, s.flagB, s.aLeft, s.bLeft, s.wofs, b2⟩).buf.getD j 0 := by
  simp only [encStep]
  split_ifs with h1 h2 h3 h4 <;>
    refine ⟨by simp, by simp, by simp, by simp, by simp,
      by simp [pySet_length, hlen], ?_⟩ <;>
    intro j hj <;>
    simp only [] at hj ⊢ <;>
    first
    | exact hag j (by omega)
    | (refine pySet_agree _ _ _ _ (by simp [pySet_length, hlen]) (fun a ha => ?_) j (by omega)
       first
       | exact hag a (by omega)
       | (refine pySet_agree _ _ _ _ (by simp [pySet_length, hlen]) (fun b hb => ?_) a (by omega)
          first
          | exact hag b (by omega)
          | (refine pySet_agree _ _ _ _ hlen (fun c hc => hag c (by omega)) b (by omega))))

theorem encLoop_congr (work : List Nat) :
    ∀ (r : Nat) (s : EncSt) (b2 : List Nat),
      s.buf.length = b2.length →
      (∀ j : Nat, s.wofs ≤ (j : Int) → s.buf.getD j 0 = b2.getD j 0) →
      (encLoop work r s).flagA =
        (encLoop work r ⟨s.flagA, s.flagB, s.aLeft, s.bLeft, s.wofs, b2⟩).flagA ∧
      (encLoop work r s).flagB =
        (encLoop work r ⟨s.flagA, s.flagB, s.aLeft, s.bLeft, s.wofs, b2⟩).flagB ∧
      (encLoop work r s).aLeft =
        (encLoop work r ⟨s.flagA, s.flagB, s.aLeft, s.bLeft, s.wofs, b2⟩).aLeft ∧
      (encLoop work r s).bLeft =
        (encLoop work r ⟨s.flagA, s.flagB, s.aLeft, s.bLeft, s.wofs, b2⟩).bLeft ∧
      (encLoop work r s).wofs =
        (encLoop work r ⟨s.flagA, s.flagB, s.aLeft, s.bLeft, s.wofs, b2⟩).wofs ∧
      (encLoop work r s).buf.length =
        (encLoop work r ⟨s.flagA, s.flagB, s.aLeft, s.bLeft, s.wofs, b2⟩).buf.length ∧
      ∀ j : Nat, (encLoop work r s).wofs ≤ (j : Int) →
        (encLoop work r s).buf.getD j 0 =
          (encLoop work r ⟨s.flagA, s.flagB, s.aLeft, s.bLeft, s.wofs, b2⟩).buf.getD j 0 := by
  intro r
  induction r with
  | zero =>
      intro s b2 hlen hag
      exact ⟨rfl, rfl, rfl, rfl, rfl, hlen, hag⟩
  | succ r ih =>
      intro s b2 hlen hag
      rw [encLoop, encLoop]
      obtain ⟨hA, hB, ha, hb, hw, hL, hAg⟩ := encStep_congr work r s b2 hlen hag
      have hrepr : encStep work r ⟨s.flagA, s.flagB, s.aLeft, s.bLeft, s.wofs, b2⟩ =
          ⟨(encStep work r s).flagA, (encStep work r s).flagB, (encStep work r s).aLeft,
           (encStep work r s).bLeft, (encStep work r s).wofs,
           (encStep work r ⟨s.flagA, s.flagB, s.aLeft, s.bLeft, s.wofs, b2⟩).buf⟩ := by
        rw [hA, hB, ha, hb, hw]
      rw [hrepr]
      exact ih (encStep work r s)
        (encStep work r ⟨s.flagA, s.flagB, s.aLeft, s.bLeft, s.wofs, b2⟩).buf hL hAg

theorem Encode_length (work f : List Nat) : (Encode work f).2.length = f.length := by
  simp only [Encode]
  exact encLoop_buf_length work work.length _

theorem Encode_congr (work f1 f2 : List Nat) (hlen : f1.length = f2.length) :
    (Encode work f1).1 = (Encode work f2).1 ∧
    pySuffix (Encode work f1).2 (Encode work f1).1 =
      pySuffix (Encode work f2).2 (Encode work f2).1 := by
  simp only [Encode]
  rw [hlen]
  have hinit : ∀ j : Nat, ((f2.length : Int) : Int) ≤ (j : Int) → f1.getD j 0 = f2.getD j 0 := by
    intro j hj
    rw [getD_oob f1 j (by omega), getD_oob f2 j (by omega)]
  obtain ⟨_, _, _, _, hw, hL, hAg⟩ := encLoop_congr work work.length
    ⟨0, 0, if (work.length + 7) >>> 3 &&& 7 = 0 then 8 else (work.length + 7) >>> 3 &&& 7,
      if work.length &&& 7 = 0 then 8 else work.length &&& 7, (f2.length : Int), f1⟩
    f2 hlen hinit
  refine ⟨hw, ?_⟩
  rw [← hw]
  exact pySuffix_congr _ _ _ hL hAg

theorem vXorAux_length (S : Nat) :
    ∀ (n : Nat) (work : List Nat) (wofs : Nat), (vXorAux S n work wofs).length = work.length := by
  intro n
  induction n with
  | zero => intro work wofs; rfl
  | succ n ih => intro work wofs; rw [vXorAux, ih, List.length_set]

theorem VerticalIX_congr (src : List Nat) (w h : Nat) (vl : List Nat) (wk1 wk2 : List Nat)
    (hlen1 : wk1.length = ((w >>> 1) + 1) * h) (hlen2 : wk2.length = ((w >>> 1) + 1) * h)
    (hvl : vl.length = h)
    (hsrc : ∀ r ∈ vl, r * (w >>> 1) + (w >>> 1) ≤ src.length) :
    (VerticalIX src wk1 w h vl).length = wk1.length ∧
    (VerticalIX src wk2 w h vl).length = wk2.length ∧
    ∀ i, i < wk1.length → (∀ k, k < h → i ≠ k * ((w >>> 1) + 1)) →
      (VerticalIX src wk1 w h vl).getD i 0 = (VerticalIX src wk2 w h vl).getD i 0 := by
  simp only [VerticalIX]
  obtain ⟨stride, hstride⟩ : ∃ t, t = w >>> 1 := ⟨_, rfl⟩
  rw [← hstride] at hlen1 hlen2 hsrc ⊢
  have hcm : h * (stride + 1) = (stride + 1) * h := Nat.mul_comm _ _
  have hc1len : (vCopyAux src stride vl wk1 1).length = wk1.length :=
    vCopyAux_length src stride vl wk1 1 hsrc (by rw [hvl]; omega)
  have hc2len : (vCopyAux src stride vl wk2 1).length = wk2.length :=
    vCopyAux_length src stride vl wk2 1 hsrc (by rw [hvl]; omega)
  have hcAgree : ∀ i, i < wk1.length → (∀ k, k < h → i ≠ k * (stride + 1)) →
      (vCopyAux src stride vl wk1 1).getD i 0 = (vCopyAux src stride vl wk2 1).getD i 0 := by
    intro i hi hm
    have hdm := Nat.div_add_mod i (stride + 1)
    have hklt : i / (stride + 1) < h := by
      refine Nat.div_lt_of_lt_mul ?_
      omega
    have hmod : i % (stride + 1) ≠ 0 := by
      intro hc
      refine hm (i / (stride + 1)) hklt ?_
      have := Nat.mul_comm (i / (stride + 1)) (stride + 1)
      omega
    have hmlt : i % (stride + 1) < stride + 1 := Nat.mod_lt _ (Nat.succ_pos _)
    have hidx : 1 + (i / (stride + 1)) * (stride + 1) + (i % (stride + 1) - 1) = i := by
      have := Nat.mul_comm (i / (stride + 1)) (stride + 1)
      omega
    have h1 := vCopyAux_sect src stride vl wk1 1 hsrc (by rw [hvl]; omega)
      (i / (stride + 1)) (i % (stride + 1) - 1) (by rw [hvl]; exact hklt) (by omega)
    have h2 := vCopyAux_sect src stride vl wk2 1 hsrc (by rw [hvl]; omega)
      (i / (stride + 1)) (i % (stride + 1) - 1) (by rw [hvl]; exact hklt) (by omega)
    rw [hidx] at h1 h2
    rw [h1, h2]
  by_cases hone : h = 1
  · simp only [if_pos hone]
    exact ⟨hc1len, hc2len, fun i hi hm => hcAgree i hi hm⟩
  · simp only [if_neg hone]
    refine ⟨by rw [vXorAux_length, hc1len], by rw [vXorAux_length, hc2len], ?_⟩
    intro i hi hm
    rcases Nat.eq_zero_or_pos h with rfl | hpos
    · rw [hlen1] at hi
      simp at hi
    have hms : (stride + 1) * (h - 1) + (stride + 1) = (stride + 1) * h := by
      have h1 := Nat.mul_succ (stride + 1) (h - 1)
      have h2 : (h - 1).succ = h := by omega
      rw [h2] at h1
      omega
    rw [vXorAux_getD (stride + 1) (by omega) _ _ _ (by omega) (by omega) i,
      vXorAux_getD (stride + 1) (by omega) _ _ _ (by omega) (by omega) i]
    by_cases hcond : (stride + 1) * h - (stride + 1) * (h - 1) ≤ i ∧ i < (stride + 1) * h
    · rw [if_pos hcond, if_pos hcond]
      have hge : stride + 1 ≤ i := by omega
      have hm' : ∀ k, k < h → i - (stride + 1) ≠ k * (stride + 1) := by
        intro k hk hceq
        have hsm : (k + 1) * (stride + 1) = k * (stride + 1) + (stride + 1) :=
          Nat.succ_mul k (stride + 1)
        have hklt : k + 1 < h := by
          by_contra hcon
          have h2 := Nat.mul_le_mul_right (stride + 1) (show h ≤ k + 1 by omega)
          have h3 := Nat.mul_comm h (stride + 1)
          omega
        exact hm (k + 1) hklt (by omega)
      rw [hcAgree i hi hm, hcAgree (i - (stride + 1)) (by omega) hm']
    · rw [if_neg hcond, if_neg hcond]
      exact hcAgree i hi hm

theorem scatter_ext (work1 work2 : List Nat) (ro : Nat) :
    ∀ (lookup : List Nat) (buf1 buf2 : List Nat) (last : Nat),
      buf1.length = buf2.length →
      (∀ i, (∀ l ∈ lookup, l + 1 ≠ i) → buf1.getD i 0 = buf2.getD i 0) →
      (∀ l ∈ lookup, work1.getD (ro + l) 0 = work2.getD (ro + l) 0) →
      scatter work1 ro lookup buf1 last = scatter work2 ro lookup buf2 last := by
  intro lookup
  induction lookup with
  | nil =>
      intro buf1 buf2 last hlen hag _
      exact listEqOfGetD 0 buf1 buf2 hlen (fun i _ => hag i (by simp))
  | cons l rest ih =>
      intro buf1 buf2 last hlen hag hw
      simp only [scatter]
      rw [← hw l (List.mem_cons_self _ _)]
      refine ih _ _ _ (by simp [hlen]) (fun i hi => ?_)
        (fun a ha => hw a (List.mem_cons_of_mem _ ha))
      by_cases hil : i = l + 1
      · subst hil
        by_cases hl : l + 1 < buf1.length
        · rw [setGetD_eq _ _ _ hl, setGetD_eq _ _ _ (by omega)]
        · rw [getD_oob _ _ (by rw [List.length_set]; omega),
            getD_oob _ _ (by rw [List.length_set]; omega)]
      · rw [setGetD_ne _ _ (fun hc => hil hc.symm), setGetD_ne _ _ (fun hc => hil hc.symm)]
        refine hag i (fun a ha => ?_)
        rcases List.mem_cons.mp ha with rfl | hmem
        · exact fun hc => hil hc.symm
        · exact hi a hmem

theorem selectAux_congr (f g : Nat → Int) :
    ∀ (l : List Nat) (st : Int × Nat), (∀ s ∈ l, f s = g s) →
      selectAux f l st = selectAux g l st := by
  intro l
  induction l with
  | nil => intro st _; rfl
  | cons a rest ih =>
      intro st h
      rw [selectAux, selectAux, h a (List.mem_cons_self _ _),
        ih _ (fun s hs => h s (List.mem_cons_of_mem _ hs))]

theorem buildCands_length (work : List Nat) (ro : Nat) (lk : Nat → Option (List Nat)) :
    ∀ (l : List Nat) (rb : List (List Nat)), (buildCands work ro lk l rb).length = rb.length := by
  intro l
  induction l with
  | nil => intro rb; rfl
  | cons s rest ih =>
      intro rb
      rw [buildCands]
      by_cases hs : s = 0
      · rw [if_pos hs, ih]
      · rw [if_neg hs, ih, List.length_set]

theorem setSlice_cons_eq (a : Nat) (t vals : List Nat) (h : t.length ≤ vals.length) :
    setSlice (a :: t) 1 vals = a :: vals := by
  rw [setSlice]
  have hdrop : (a :: t).drop (1 + vals.length) = [] := by
    apply List.drop_eq_nil_of_le
    simp
    omega
  rw [hdrop]
  simp

theorem cons_shape (L : List Nat) (n s : Nat) (hL : L.length = n + 1) (h0 : L.getD 0 0 = s) :
    ∃ t, L = s :: t ∧ t.length = n := by
  cases L with
  | nil => simp at hL
  | cons a t =>
      refine ⟨t, ?_, by simp at hL; omega⟩
      rw [List.getD_cons_zero] at h0
      rw [h0]

theorem payload_eq (work1 work2 : List Nat) (ro stride : Nat)
    (hw1 : ro + stride ≤ work1.length) (hlen : work1.length = work2.length)
    (hag : ∀ i, ro ≤ i → i < ro + stride → work1.getD i 0 = work2.getD i 0) :
    (work1.drop ro).take stride = (work2.drop ro).take stride := by
  refine listEqOfGetD 0 _ _ (by simp; omega) (fun i hi => ?_)
  have hilt : i < stride := by simp at hi; omega
  rw [getD_take _ _ _ hilt, getD_take _ _ _ hilt, getD_drop, getD_drop]
  exact hag (ro + i) (by omega) (by omega)

theorem initRb_length (stride : Nat) : (initRb stride).length = 0x51 := by
  rw [initRb, hrz_steps]
  simp

theorem initRb_getD (stride s : Nat) (hs : s < 0x51) :
    (initRb stride).getD s [] = s :: List.replicate stride 0 := by
  rw [initRb, hrz_steps, List.getD_eq_getElem?_getD, List.getElem?_map,
    List.getElem?_range hs]
  rfl

theorem hRow_snd (stride : Nat) (lk : Nat → Option (List Nat)) (work : List Nat)
    (rb : List (List Nat)) (ro : Nat) :
    (hRow stride lk work rb ro).2 = buildCands work ro lk hrz_steps
      (rb.set 0 (setSlice (rb.getD 0 []) 1 ((work.drop ro).take stride))) := by
  simp only [hRow]

theorem hRow_fst (stride : Nat) (lk : Nat → Option (List Nat)) (work : List Nat)
    (rb : List (List Nat)) (ro : Nat) :
    (hRow stride lk work rb ro).1 = setSlice work (ro - 1)
      ((hRow stride lk work rb ro).2.getD
        ((selectAux (fun u => rowBits ((hRow stride lk work rb ro).2.getD u []) ro)
          hrz_steps (0xFFFF, 0)).2) []) := by
  simp only [hRow]

theorem hRow_shape (stride : Nat) (lk : Nat → Option (List Nat)) (work : List Nat)
    (rb : List (List Nat)) (ro : Nat)
    (hrbL : rb.length = 0x51)
    (hsh : ∀ s, s ≤ 0x50 → ∃ t, rb.getD s [] = s :: t ∧ t.length = stride)
    (hro : 1 ≤ ro) (hwork : ro + stride ≤ work.length) :
    (hRow stride lk work rb ro).2.length = 0x51 ∧
    (∀ s, s ≤ 0x50 → ∃ t, (hRow stride lk work rb ro).2.getD s [] = s :: t ∧
      t.length = stride) ∧
    (hRow stride lk work rb ro).1.length = work.length := by
  have hpay : ((work.drop ro).take stride).length = stride := by
    simp
    omega
  have hL2 : (hRow stride lk work rb ro).2.length = 0x51 := by
    rw [hRow_snd, buildCands_length, List.length_set, hrbL]
  have hentry : ∀ s, s ≤ 0x50 → ∃ t, (hRow stride lk work rb ro).2.getD s [] = s :: t ∧
      t.length = stride := by
    intro s hs
    rw [hRow_snd, buildCands_getD work ro lk hrz_steps _ s
      (by rw [hrz_steps]; exact List.nodup_range _)
      (fun x hx => by
        rw [List.length_set, hrbL]
        rw [hrz_steps] at hx
        exact List.mem_range.mp hx)]
    by_cases hs0 : s = 0
    · subst hs0
      rw [if_neg (by simp), setGetD_eq' rb 0 _ [] (by omega)]
      obtain ⟨t0, ht0, ht0l⟩ := hsh 0 (by omega)
      rw [ht0, setSlice_cons_eq 0 t0 _ (by rw [hpay, ht0l])]
      exact ⟨(work.drop ro).take stride, rfl, hpay⟩
    · rw [if_pos ⟨by rw [hrz_steps]; exact List.mem_range.mpr (by omega), hs0⟩,
        setGetD_ne' rb _ [] (fun hc => hs0 hc.symm)]
      obtain ⟨t, ht, htl⟩ := hsh s hs
      rw [ht]
      refine cons_shape _ stride s ?_ ?_
      · rw [scatter_length]
        simp [htl]
      · rw [scatter_untouched work ro _ _ _ 0 (fun l _ => Nat.succ_ne_zero l)]
        rfl
  refine ⟨hL2, hentry, ?_⟩
  have hbr : selectAux (fun u => rowBits ((hRow stride lk work rb ro).2.getD u []) ro)
      hrz_steps (0xFFFF, 0) =
      selectAux (fun u => rowBits ((hRow stride lk work rb ro).2.getD u []) ro)
      (List.range 0x51) (0xFFFF, 0) := by rw [hrz_steps]
  have hble : (selectAux (fun u => rowBits ((hRow stride lk work rb ro).2.getD u []) ro)
      hrz_steps (0xFFFF, 0)).2 ≤ 0x50 := by
    rw [hbr]
    rcases selectAux_range_spec (fun u => rowBits ((hRow stride lk work rb ro).2.getD u []) ro)
      0x51 0xFFFF 0 with ⟨heq, _⟩ | ⟨hlt, _, _, _, _⟩
    · rw [heq]
      decide
    · omega
  obtain ⟨tb, htb, htbl⟩ := hentry _ hble
  rw [hRow_fst, htb, setSlice_length _ _ _ (by simp [htbl]; omega)]

theorem hRow_congr (stride : Nat) (lk : Nat → Option (List Nat))
    (hlk : ∀ s, 1 ≤ s → s ≤ 0x50 → (lk s).getD [] = interlaceEntry stride s)
    (work1 work2 : List Nat) (rb1 rb2 : List (List Nat)) (ro : Nat)
    (hw12 : work1.length = work2.length)
    (hrbL1 : rb1.length = 0x51)
    (hsh1 : ∀ s, s ≤ 0x50 → ∃ t, rb1.getD s [] = s :: t ∧ t.length = stride)
    (hrbL2 : rb2.length = 0x51)
    (hsh2 : ∀ s, s ≤ 0x50 → ∃ t, rb2.getD s [] = s :: t ∧ t.length = stride)
    (hro : 1 ≤ ro) (hwork : ro + stride ≤ work1.length)
    (hag : ∀ i, ro ≤ i → i < ro + stride → work1.getD i 0 = work2.getD i 0) :
    ∃ c, (hRow stride lk work1 rb1 ro).1 = setSlice work1 (ro - 1) c ∧
      (hRow stride lk work2 rb2 ro).1 = setSlice work2 (ro - 1) c ∧
      c.length = stride + 1 := by
  have hpayeq := payload_eq work1 work2 ro stride hwork hw12 hag
  have hpay2 : ((work2.drop ro).take stride).length = stride := by
    simp
    omega
  have hcand : ∀ s, s ≤ 0x50 →
      (hRow stride lk work1 rb1 ro).2.getD s [] =
        (hRow stride lk work2 rb2 ro).2.getD s [] := by
    intro s hs
    rw [hRow_snd, hRow_snd,
      buildCands_getD work1 ro lk hrz_steps _ s
        (by rw [hrz_steps]; exact List.nodup_range _)
        (fun x hx => by
          rw [List.length_set, hrbL1]
          rw [hrz_steps] at hx
          exact List.mem_range.mp hx),
      buildCands_getD work2 ro lk hrz_steps _ s
        (by rw [hrz_steps]; exact List.nodup_range _)
        (fun x hx => by
          rw [List.length_set, hrbL2]
          rw [hrz_steps] at hx
          exact List.mem_range.mp hx)]
    by_cases hs0 : s = 0
    · subst hs0
      rw [if_neg (by simp), if_neg (by simp),
        setGetD_eq' rb1 0 _ [] (by omega), setGetD_eq' rb2 0 _ [] (by omega), hpayeq]
      obtain ⟨t1, ht1, ht1l⟩ := hsh1 0 (by omega)
      obtain ⟨t2, ht2, ht2l⟩ := hsh2 0 (by omega)
      rw [ht1, ht2, setSlice_cons_eq 0 t1 _ (by rw [hpay2, ht1l]),
        setSlice_cons_eq 0 t2 _ (by rw [hpay2, ht2l])]
    · rw [if_pos ⟨by rw [hrz_steps]; exact List.mem_range.mpr (by omega), hs0⟩,
        if_pos ⟨by rw [hrz_steps]; exact List.mem_range.mpr (by omega), hs0⟩,
        setGetD_ne' rb1 _ [] (fun hc => hs0 hc.symm),
        setGetD_ne' rb2 _ [] (fun hc => hs0 hc.symm)]
      obtain ⟨t1, ht1, ht1l⟩ := hsh1 s hs
      obtain ⟨t2, ht2, ht2l⟩ := hsh2 s hs
      rw [ht1, ht2, hlk s (by omega) hs]
      refine scatter_ext work1 work2 ro (interlaceEntry stride s) (s :: t1) (s :: t2) 0
        (by simp [ht1l, ht2l]) (fun i hcov => ?_) (fun l hl => ?_)
      · cases i with
        | zero => rw [List.getD_cons_zero, List.getD_cons_zero]
        | succ j =>
            by_cases hj : j < stride
            · exact absurd rfl
                (hcov j (interlaceEntry_mem_of_lt stride s (by omega) j hj))
            · rw [getD_oob _ _ (by simp [ht1l]; omega),
                getD_oob _ _ (by simp [ht2l]; omega)]
      · have hlt := interlaceEntry_mem_lt stride s l hl
        exact hag (ro + l) (by omega) (by omega)
  have hsel : selectAux (fun u => rowBits ((hRow stride lk work1 rb1 ro).2.getD u []) ro)
      hrz_steps (0xFFFF, 0) =
      selectAux (fun u => rowBits ((hRow stride lk work2 rb2 ro).2.getD u []) ro)
      hrz_steps (0xFFFF, 0) := by
    refine selectAux_congr _ _ hrz_steps (0xFFFF, 0) (fun u hu => ?_)
    rw [hrz_steps] at hu
    rw [hcand u (by have := List.mem_range.mp hu; omega)]
  have hble : (selectAux (fun u => rowBits ((hRow stride lk work1 rb1 ro).2.getD u []) ro)
      hrz_steps (0xFFFF, 0)).2 ≤ 0x50 := by
    rw [hrz_steps]
    rcases selectAux_range_spec
      (fun u => rowBits ((hRow stride lk work1 rb1 ro).2.getD u []) ro)
      0x51 0xFFFF 0 with ⟨heq, _⟩ | ⟨hlt, _, _, _, _⟩
    · rw [heq]
      decide
    · omega
  obtain ⟨_, hentry1, _⟩ := hRow_shape stride lk work1 rb1 ro hrbL1 hsh1 hro hwork
  obtain ⟨tb, htb, htbl⟩ := hentry1 _ hble
  refine ⟨(hRow stride lk work1 rb1 ro).2.getD
    ((selectAux (fun u => rowBits ((hRow stride lk work1 rb1 ro).2.getD u []) ro)
      hrz_steps (0xFFFF, 0)).2) [], hRow_fst stride lk work1 rb1 ro, ?_, by rw [htb]; simp [htbl]⟩
  rw [hRow_fst stride lk work2 rb2 ro, ← hsel, ← hcand _ hble]

theorem hRows_shape (stride : Nat) (lk : Nat → Option (List Nat)) :
    ∀ (y : Nat) (work : List Nat) (rb : List (List Nat)) (ro : Nat),
      rb.length = 0x51 →
      (∀ s, s ≤ 0x50 → ∃ t, rb.getD s [] = s :: t ∧ t.length = stride) →
      1 ≤ ro → ro - 1 + y * (stride + 1) ≤ work.length →
      (hRows stride lk y work rb ro).1.length = work.length ∧
      (hRows stride lk y work rb ro).2.length = 0x51 ∧
      (∀ s, s ≤ 0x50 → ∃ t, (hRows stride lk y work rb ro).2.getD s [] = s :: t ∧
        t.length = stride) := by
  intro y
  induction y with
  | zero =>
      intro work rb ro hL hsh _ _
      exact ⟨rfl, hL, hsh⟩
  | succ y ih =>
      intro work rb ro hL hsh hro hfit
      simp only [hRows]
      have hsm : (y + 1) * (stride + 1) = y * (stride + 1) + (stride + 1) :=
        Nat.succ_mul y (stride + 1)
      have hwork : ro + stride ≤ work.length := by omega
      obtain ⟨hrbl, hrsh, hrl⟩ := hRow_shape stride lk work rb ro hL hsh hro hwork
      obtain ⟨h1, h2, h3⟩ := ih (hRow stride lk work rb ro).1 (hRow stride lk work rb ro).2
        (ro + stride + 1) hrbl hrsh (by omega) (by rw [hrl]; omega)
      exact ⟨by rw [h1, hrl], h2, h3⟩

theorem hRows_congr (stride : Nat) (lk : Nat → Option (List Nat))
    (hlk : ∀ s, 1 ≤ s → s ≤ 0x50 → (lk s).getD [] = interlaceEntry stride s) :
    ∀ (y : Nat) (work1 work2 : List Nat) (rb1 rb2 : List (List Nat)) (ro : Nat),
      work1.length = work2.length →
      rb1.length = 0x51 →
      (∀ s, s ≤ 0x50 → ∃ t, rb1.getD s [] = s :: t ∧ t.length = stride) →
      rb2.length = 0x51 →
      (∀ s, s ≤ 0x50 → ∃ t, rb2.getD s [] = s :: t ∧ t.length = stride) →
      1 ≤ ro → ro - 1 + y * (stride + 1) ≤ work1.length →
      (∀ i, i < work1.length → (∀ k, k < y → i ≠ ro - 1 + k * (stride + 1)) →
        work1.getD i 0 = work2.getD i 0) →
      (hRows stride lk y work1 rb1 ro).1 = (hRows stride lk y work2 rb2 ro).1 := by
  intro y
  induction y with
  | zero =>
      intro work1 work2 rb1 rb2 ro hw12 _ _ _ _ _ _ hag
      simp only [hRows]
      exact listEqOfGetD 0 _ _ hw12 (fun i hi => hag i hi (fun k hk => by omega))
  | succ y ih =>
      intro work1 work2 rb1 rb2 ro hw12 hL1 hsh1 hL2 hsh2 hro hfit hag
      simp only [hRows]
      have hsm : (y + 1) * (stride + 1) = y * (stride + 1) + (stride + 1) :=
        Nat.succ_mul y (stride + 1)
      have hwork1 : ro + stride ≤ work1.length := by omega
      have hwork2 : ro + stride ≤ work2.length := by omega
      obtain ⟨c, hc1, hc2, hclen⟩ := hRow_congr stride lk hlk work1 work2 rb1 rb2 ro hw12
        hL1 hsh1 hL2 hsh2 hro hwork1
        (fun i h1 h2 => hag i (by omega) (fun k hk => by
          cases k with
          | zero => omega
          | succ k =>
              have hx : (k + 1) * (stride + 1) = k * (stride + 1) + (stride + 1) :=
                Nat.succ_mul k (stride + 1)
              omega))
      obtain ⟨hrbl1, hrsh1, hrl1⟩ := hRow_shape stride lk work1 rb1 ro hL1 hsh1 hro hwork1
      obtain ⟨hrbl2, hrsh2, hrl2⟩ := hRow_shape stride lk work2 rb2 ro hL2 hsh2 hro hwork2
      refine ih (hRow stride lk work1 rb1 ro).1 (hRow stride lk work2 rb2 ro).1
        (hRow stride lk work1 rb1 ro).2 (hRow stride lk work2 rb2 ro).2 (ro + stride + 1)
        (by rw [hrl1, hrl2, hw12]) hrbl1 hrsh1 hrbl2 hrsh2 (by omega)
        (by rw [hrl1]; omega) (fun i hi hks => ?_)
      rw [hrl1] at hi
      rw [hc1, hc2]
      rcases Nat.lt_or_ge i (ro - 1) with hlow | hge
      · rw [setSlice_getD_out _ _ _ _ (by omega) (by omega),
          setSlice_getD_out _ _ _ _ (by omega) (by omega)]
        refine hag i hi (fun k hk => ?_)
        cases k with
        | zero => omega
        | succ k =>
            have hmark := hks k (by omega)
            have hx : (k + 1) * (stride + 1) = k * (stride + 1) + (stride + 1) :=
              Nat.succ_mul k (stride + 1)
            omega
      · rcases Nat.lt_or_ge i (ro - 1 + (stride + 1)) with hmid | hhigh
        · rw [setSlice_getD_in _ _ _ _ (by omega) (by omega) (by rw [hclen]; omega),
            setSlice_getD_in _ _ _ _ (by omega) (by omega) (by rw [hclen]; omega)]
        · rw [setSlice_getD_out _ _ _ _ (by omega) (by rw [hclen]; omega),
            setSlice_getD_out _ _ _ _ (by omega) (by rw [hclen]; omega)]
          refine hag i hi (fun k hk => ?_)
          cases k with
          | zero => omega
          | succ k =>
              have hmark := hks k (by omega)
              have hx : (k + 1) * (stride + 1) = k * (stride + 1) + (stride + 1) :=
                Nat.succ_mul k (stride + 1)
              omega

theorem trialStep_congr (src : List Nat) (w h : Nat) (vrt : Nat)
    (hsrc : src.length = (w >>> 1) * h)
    (hvrt : vrt = 1 ∨ vrt = 2 ∨ vrt = 4)
    (stF stR : TrialSt)
    (hwork : stF.work.length = ((w >>> 1) + 1) * h)
    (hfin : stF.finalv.length = ((w >>> 1) + 1) * h * 8 / 7)
    (hrbL : stF.rb.length = 0x51)
    (hrbS : ∀ s, s ≤ 0x50 → ∃ t, stF.rb.getD s [] = s :: t ∧ t.length = w >>> 1)
    (hbo : stF.bestofs = stR.bestofs) (hbb : stF.bestbuf = stR.bestbuf)
    (hbv : stF.bestvrt = stR.bestvrt) :
    (trialStep src w h (MakeInterlaceTable (w >>> 1) hrz_steps)
      (MakeInterlaceTable h [1, 2, 4]) stF vrt).work.length = ((w >>> 1) + 1) * h ∧
    (trialStep src w h (MakeInterlaceTable (w >>> 1) hrz_steps)
      (MakeInterlaceTable h [1, 2, 4]) stF vrt).finalv.length = ((w >>> 1) + 1) * h * 8 / 7 ∧
    (trialStep src w h (MakeInterlaceTable (w >>> 1) hrz_steps)
      (MakeInterlaceTable h [1, 2, 4]) stF vrt).rb.length = 0x51 ∧
    (∀ s, s ≤ 0x50 → ∃ t, (trialStep src w h (MakeInterlaceTable (w >>> 1) hrz_steps)
      (MakeInterlaceTable h [1, 2, 4]) stF vrt).rb.getD s [] = s :: t ∧
      t.length = w >>> 1) ∧
    (trialStep src w h (MakeInterlaceTable (w >>> 1) hrz_steps)
      (MakeInterlaceTable h [1, 2, 4]) stF vrt).bestofs =
      (trialStepFresh src w h (MakeInterlaceTable (w >>> 1) hrz_steps)
        (MakeInterlaceTable h [1, 2, 4]) stR vrt).bestofs ∧
    (trialStep src w h (MakeInterlaceTable (w >>> 1) hrz_steps)
      (MakeInterlaceTable h [1, 2, 4]) stF vrt).bestbuf =
      (trialStepFresh src w h (MakeInterlaceTable (w >>> 1) hrz_steps)
        (MakeInterlaceTable h [1, 2, 4]) stR vrt).bestbuf ∧
    (trialStep src w h (MakeInterlaceTable (w >>> 1) hrz_steps)
      (MakeInterlaceTable h [1, 2, 4]) stF vrt).bestvrt =
      (trialStepFresh src w h (MakeInterlaceTable (w >>> 1) hrz_steps)
        (MakeInterlaceTable h [1, 2, 4]) stR vrt).bestvrt := by
  have hvrt0 : 0 < vrt := by rcases hvrt with rfl | rfl | rfl <;> omega
  have hvl : ((MakeInterlaceTable h [1, 2, 4]) vrt).getD [] = interlaceEntry h vrt := by
    rw [MakeInterlaceTable, if_pos ⟨by rcases hvrt with rfl | rfl | rfl <;> simp, by omega⟩]
    rfl
  have hvll : (interlaceEntry h vrt).length = h := interlaceEntry_length h vrt hvrt0
  have hsrc' : ∀ r ∈ interlaceEntry h vrt, r * (w >>> 1) + (w >>> 1) ≤ src.length := by
    intro r hr
    have hrlt : r < h := interlaceEntry_mem_lt h vrt r hr
    have h1 : (r + 1) * (w >>> 1) ≤ h * (w >>> 1) :=
      Nat.mul_le_mul_right _ (by omega)
    have h2 : (r + 1) * (w >>> 1) = r * (w >>> 1) + (w >>> 1) := Nat.succ_mul r (w >>> 1)
    have h3 : h * (w >>> 1) = (w >>> 1) * h := Nat.mul_comm _ _
    omega
  have hlk : ∀ s, 1 ≤ s → s ≤ 0x50 →
      ((MakeInterlaceTable (w >>> 1) hrz_steps) s).getD [] = interlaceEntry (w >>> 1) s := by
    intro s hs1 hs2
    rw [MakeInterlaceTable,
      if_pos ⟨by rw [hrz_steps]; exact List.mem_range.mpr (by omega), by omega⟩]
    rfl
  have hmc : h * ((w >>> 1) + 1) = ((w >>> 1) + 1) * h := Nat.mul_comm _ _
  simp only [trialStep, trialStepFresh]
  rw [hvl]
  obtain ⟨hV1len, hV2len, hVag⟩ := VerticalIX_congr src w h (interlaceEntry h vrt)
    stF.work (List.replicate ((w >>> 1 + 1) * h) 0) hwork (by simp) hvll hsrc'
  simp only [HorizontalIX]
  have hweq := hRows_congr (w >>> 1) (MakeInterlaceTable (w >>> 1) hrz_steps) hlk h
    (VerticalIX src stF.work w h (interlaceEntry h vrt))
    (VerticalIX src (List.replicate ((w >>> 1 + 1) * h) 0) w h (interlaceEntry h vrt))
    stF.rb (initRb (w >>> 1)) 1
    (by rw [hV1len, hV2len, hwork]; simp)
    hrbL hrbS (initRb_length _)
    (fun s hs => ⟨List.replicate (w >>> 1) 0, initRb_getD _ s (by omega), by simp⟩)
    (by omega)
    (by rw [hV1len, hwork]; omega)
    (fun i hi hks => by
      rw [hV1len, hwork] at hi
      exact hVag i (by omega) (fun k hk hceq => hks k hk (by omega)))
  obtain ⟨hWlen, hRblen, hRbsh⟩ := hRows_shape (w >>> 1)
    (MakeInterlaceTable (w >>> 1) hrz_steps) h
    (VerticalIX src stF.work w h (interlaceEntry h vrt)) stF.rb 1 hrbL hrbS (by omega)
    (by rw [hV1len, hwork]; omega)
  rw [← hweq]
  obtain ⟨hoffs, hsuffix⟩ := Encode_congr
    (hRows (w >>> 1) (MakeInterlaceTable (w >>> 1) hrz_steps) h
      (VerticalIX src stF.work w h (interlaceEntry h vrt)) stF.rb 1).1
    stF.finalv (List.replicate ((w >>> 1 + 1) * h * 8 / 7) 0) (by rw [hfin]; simp)
  rw [← hoffs, ← hbo]
  by_cases hbetter : (Encode (hRows (w >>> 1) (MakeInterlaceTable (w >>> 1) hrz_steps) h
      (VerticalIX src stF.work w h (interlaceEntry h vrt)) stF.rb 1).1 stF.finalv).1 >
      stF.bestofs
  · rw [if_pos hbetter, if_pos hbetter]
    have hsuffix2 : pySuffix (Encode (hRows (w >>> 1)
        (MakeInterlaceTable (w >>> 1) hrz_steps) h
        (VerticalIX src stF.work w h (interlaceEntry h vrt)) stF.rb 1).1 stF.finalv).2
        (Encode (hRows (w >>> 1) (MakeInterlaceTable (w >>> 1) hrz_steps) h
          (VerticalIX src stF.work w h (interlaceEntry h vrt)) stF.rb 1).1 stF.finalv).1 =
        pySuffix (Encode (hRows (w >>> 1) (MakeInterlaceTable (w >>> 1) hrz_steps) h
          (VerticalIX src stF.work w h (interlaceEntry h vrt)) stF.rb 1).1
          (List.replicate ((w >>> 1 + 1) * h * 8 / 7) 0)).2
        (Encode (hRows (w >>> 1) (MakeInterlaceTable (w >>> 1) hrz_steps) h
          (VerticalIX src stF.work w h (interlaceEntry h vrt)) stF.rb 1).1 stF.finalv).1 := by
      rw [hsuffix, hoffs]
    refine ⟨by simp [hWlen, hV1len, hwork], by simp [Encode_length, hfin],
      by simp [hRblen], fun s hs => by simpa using hRbsh s hs,
      by simpa using hoffs, by simpa using hsuffix2, by simp⟩
  · rw [if_neg hbetter, if_neg hbetter]
    refine ⟨by simp [hWlen, hV1len, hwork], by simp [Encode_length, hfin],
      by simp [hRblen], fun s hs => by simpa using hRbsh s hs,
      by simpa using hbo, by simpa using hbb, by simpa using hbv⟩

/-- C10: although Compress reuses the same work buffer, rowbuf dict and
final buffer across its three vertical-step trials, each trial's encoded
output and offset depend only on the plane buffer, `w`, `h` and the trial's
vertical step: for every well-formed plane buffer (its length is
`(w >>> 1) * h`, the layout the caller always supplies) Compress returns
exactly the result of the reference implementation `CompressFresh` that
allocates fresh zero-filled buffers for every trial — no state left by a
previous trial influences a later one. -/
theorem C10_fresh_buffer_equivalence (src : List Nat) (w h : Nat)
    (hsrc : src.length = (w >>> 1) * h) :
    Compress src w h = CompressFresh src w h := by
  simp only [Compress, CompressFresh, List.foldl_cons, List.foldl_nil]
  obtain ⟨h1w, h1f, h1rL, h1rS, h1bo, h1bb, h1bv⟩ :=
    trialStep_congr src w h 2 hsrc (Or.inr (Or.inl rfl))
      ⟨List.replicate ((w >>> 1 + 1) * h) 0, initRb (w >>> 1),
        List.replicate ((w >>> 1 + 1) * h * 8 / 7) 0, 0, [], 0⟩
      ⟨List.replicate ((w >>> 1 + 1) * h) 0, initRb (w >>> 1),
        List.replicate ((w >>> 1 + 1) * h * 8 / 7) 0, 0, [], 0⟩
      (by simp) (by simp) (by simp [initRb_length])
      (fun s hs => ⟨List.replicate (w >>> 1) 0, initRb_getD _ s (by omega), by simp⟩)
      rfl rfl rfl
  obtain ⟨h2w, h2f, h2rL, h2rS, h2bo, h2bb, h2bv⟩ :=
    trialStep_congr src w h 1 hsrc (Or.inl rfl)
      (trialStep src w h (MakeInterlaceTable (w >>> 1) hrz_steps)
        (MakeInterlaceTable h [1, 2, 4])
        ⟨List.replicate ((w >>> 1 + 1) * h) 0, initRb (w >>> 1),
          List.replicate ((w >>> 1 + 1) * h * 8 / 7) 0, 0, [], 0⟩ 2)
      (trialStepFresh src w h (MakeInterlaceTable (w >>> 1) hrz_steps)
        (MakeInterlaceTable h [1, 2, 4])
        ⟨List.replicate ((w >>> 1 + 1) * h) 0, initRb (w >>> 1),
          List.replicate ((w >>> 1 + 1) * h * 8 / 7) 0, 0, [], 0⟩ 2)
      h1w h1f h1rL h1rS h1bo h1bb h1bv
  obtain ⟨h3w, h3f, h3rL, h3rS, h3bo, h3bb, h3bv⟩ :=
    trialStep_congr src w h 4 hsrc (Or.inr (Or.inr rfl))
      (trialStep src w h (MakeInterlaceTable (w >>> 1) hrz_steps)
        (MakeInterlaceTable h [1, 2, 4])
        (trialStep src w h (MakeInterlaceTable (w >>> 1) hrz_steps)
          (MakeInterlaceTable h [1, 2, 4])
          ⟨List.replicate ((w >>> 1 + 1) * h) 0, initRb (w >>> 1),
            List.replicate ((w >>> 1 + 1) * h * 8 / 7) 0, 0, [], 0⟩ 2) 1)
      (trialStepFresh src w h (MakeInterlaceTable (w >>> 1) hrz_steps)
        (MakeInterlaceTable h [1, 2, 4])
        (trialStepFresh src w h (MakeInterlaceTable (w >>> 1) hrz_steps)
          (MakeInterlaceTable h [1, 2, 4])
          ⟨List.replicate ((w >>> 1 + 1) * h) 0, initRb (w >>> 1),
            List.replicate ((w >>> 1 + 1) * h * 8 / 7) 0, 0, [], 0⟩ 2) 1)
      h2w h2f h2rL h2rS h2bo h2bb h2bv
  rw [h3bb, h3bv]

/-- Witness for C10 at a 2-byte plane buffer (`w = 4`, `h = 1`). -/
theorem C10_witness :
    [3, 5].length = (4 >>> 1) * 1 ∧ Compress [3, 5] 4 1 = CompressFresh [3, 5] 4 1 :=
  ⟨by decide, C10_fresh_buffer_equivalence [3, 5] 4 1 (by decide)⟩
